import Mathlib

/-!
# Verification of the sol-agentic-harness core

A shallow embedding, in Lean 4, of the parts of the `sol-agentic-harness`
TypeScript library that the specification's checked claims are about:

* `src/tools/builtin/bash.ts` — output truncation (`truncateOutput`);
* `src/tools/registry.ts` — the name→tool map (`ToolRegistry`);
* `src/mcp/server-manager.ts` — auto-restart bookkeeping on child exit;
* `src/client/api-client.ts` — the 401 refresh-and-retry policy of
  `streamMessage` and `parseError`;
* `src/agent/transcript.ts` — `loadTranscript`'s reconstruction and
  tool-cycle validation scan;
* `src/utils/streaming.ts` — the SSE parser (`parseSSE`, `parseSSEEvent`);
* `src/agent/loop.ts` — the agentic turn loop (`AgentLoop.run`), its
  stream reassembly, pre/post tool hooks, auto-compaction and
  cancellation behaviour, together with `src/agent/hooks.ts`
  (`HookRegistry.run`).

JavaScript strings are modelled as `String`/`List Char` (UTF-16 length is
identified with character count), JSON values that the code merely threads
through are modelled by their source text, numbers that the code only adds
and compares are `Int`/`Nat`, and the single-threaded event-loop schedule
is modelled by an explicit tick counter: every `await`/`yield` suspension
point advances time by one, and an external `cancel()` call is modelled by
the tick `cancelAt` at which the cancellation flag becomes true.
-/

namespace Sol

/-! ## Shell tool output truncation (`src/tools/builtin/bash.ts`)

`truncateOutput` caps captured output at `MAX_OUTPUT_LENGTH = 30_000`
characters and appends a marker noting how many characters were elided.
Strings are modelled as `List Char`.
-/

def MAX_OUTPUT_LENGTH : Nat := 30000

/-- The `[Output truncated - N more characters not shown]` marker, with the
blank line that the template literal in `truncateOutput` puts before it. -/
def truncationMarker (remaining : Nat) : List Char :=
  "\n\n[Output truncated - ".toList ++ (Nat.repr remaining).toList
    ++ " more characters not shown]".toList

/-- Embedding of `truncateOutput` (bash.ts lines 228–237). -/
def truncateOutput (output : List Char) : List Char :=
  if output.length ≤ MAX_OUTPUT_LENGTH then output
  else
    let truncated := output.take MAX_OUTPUT_LENGTH
    let remaining := output.length - MAX_OUTPUT_LENGTH
    truncated ++ truncationMarker remaining

/-! ## Tool registry (`src/tools/registry.ts`)

`ToolRegistry` stores tools in a JavaScript `Map` keyed by name.
`Map.set` replaces the value in place when the key exists (keeping its
insertion position) and appends otherwise; this is `mapSet` below.  The
registry state is the insertion-ordered list of entries.  The tool's
`description`, `input_schema` and `execute` members are irrelevant to the
registry's behaviour and are collapsed into an opaque `tag`.
-/

structure ToolDefM where
  name : String
  tag : Nat
deriving DecidableEq, Repr

/-- JavaScript `Map.set` keyed by `name` (used by `ToolRegistry.register`). -/
def mapSet : List ToolDefM → ToolDefM → List ToolDefM
  | [], t => [t]
  | u :: rest, t => if u.name = t.name then t :: rest else u :: mapSet rest t

/-- `ToolRegistry.register` (registry.ts lines 24–26). -/
def register (m : List ToolDefM) (t : ToolDefM) : List ToolDefM := mapSet m t

/-- `ToolRegistry.registerAll` (registry.ts lines 31–35). -/
def registerAll (m : List ToolDefM) (ts : List ToolDefM) : List ToolDefM :=
  ts.foldl register m

/-- `ToolRegistry.get` / `Map.get` (first — and, under the registry's
invariant, only — entry with the given name). -/
def regGet : List ToolDefM → String → Option ToolDefM
  | [], _ => none
  | t :: rest, n => if t.name = n then some t else regGet rest n

/-- The per-run registry built by `AgentLoop.run` (loop.ts lines 163–165):
a fresh registry populated with the loop's registered tools followed by the
tools supplied in the run parameters. -/
def runRegistry (loopTools params : List ToolDefM) : List ToolDefM :=
  registerAll [] (loopTools ++ params)

/-! ## MCP server manager restarts (`src/mcp/server-manager.ts`)

The per-server lifecycle state relevant to auto-restart, and the
transitions taken by the `exit` handler installed in `spawnServer`
(lines 126–153), by a completed `connect` (lines 92–98), by a failed
`connect` (lines 99–103) and by `shutdown`/`disconnect` (lines 331–369).
The embedding returns, besides the successor state, the delay in
milliseconds of the reconnect that the exit handler schedules with
`setTimeout`, when it schedules one.
-/

inductive MCPStatusM
  | disconnected
  | connecting
  | connected
  | error
deriving DecidableEq, Repr

/-- `MCPServerConfig` after `addServer` has applied the defaults
(server-manager.ts lines 59–75): `restartOnCrash: true`, `maxRestarts: 3`. -/
structure MCPConfigM where
  restartOnCrash : Bool := true
  maxRestarts : Nat := 3
deriving DecidableEq, Repr

/-- The fields of `ManagedServer` that the restart logic reads and writes,
plus the manager-wide `shuttingDown` flag. -/
structure MCPStateM where
  status : MCPStatusM := .disconnected
  restartCount : Nat := 0
  shuttingDown : Bool := false
deriving DecidableEq, Repr

inductive MCPEventM
  /-- The child process's `exit` event. -/
  | childExit
  /-- `connect()` ran to completion (spawn + initialize succeeded). -/
  | connectOk
  /-- `connect()` threw. -/
  | connectFail
  /-- `shutdown()` was called. -/
  | shutdownEv
deriving DecidableEq, Repr

/-- One lifecycle transition.  The second component is `some d` when the
exit handler schedules a reconnect after `d` milliseconds. -/
def mcpStep (cfg : MCPConfigM) (s : MCPStateM) : MCPEventM → MCPStateM × Option Nat
  | .childExit =>
    if s.shuttingDown then (s, none)
    else
      let s' := { s with status := .disconnected }
      if cfg.restartOnCrash ∧ s.restartCount < cfg.maxRestarts then
        let count := s.restartCount + 1
        let delay := min (1000 * 2 ^ (count - 1)) 30000
        ({ s' with restartCount := count }, some delay)
      else (s', none)
  | .connectOk => ({ s with status := .connected, restartCount := 0 }, none)
  | .connectFail => ({ s with status := .error }, none)
  | .shutdownEv => ({ s with shuttingDown := true, status := .disconnected }, none)

/-- `k` consecutive child exits (each scheduled reconnect attempt failing
again before the next exit): final state and the scheduled delays in
order. -/
def mcpRunExits (cfg : MCPConfigM) (s : MCPStateM) : Nat → MCPStateM × List Nat
  | 0 => (s, [])
  | k + 1 =>
    let (s', d?) := mcpStep cfg s .childExit
    let (s'', ds) := mcpRunExits cfg s' k
    (s'', (match d? with | some d => [d] | none => []) ++ ds)

/-! ## API client retry policy (`src/client/api-client.ts`)

`streamMessage` builds the request body once, fetches, and on HTTP 401
refreshes credentials (`buildHeaders(true)`) and retries the same body
exactly once; any non-OK final response is turned into a typed error by
`parseError`.  The HTTP environment is modelled by the two responses the
two possible fetches would return.
-/

/-- The parts of a `Response` that `streamMessage`/`parseError` read. -/
structure HttpRespM where
  status : Nat
  statusText : String := ""
  /-- `error.type` of the parsed JSON error body, when the body parsed. -/
  errType : Option String := none
  /-- `error.message` of the parsed JSON error body, when the body parsed. -/
  errMsg : Option String := none
  /-- The `retry-after` header, already through `parseInt`. -/
  retryAfter : Option Int := none
deriving DecidableEq, Repr

/-- `Response.ok`: status in the range 200–299. -/
def respOk (r : HttpRespM) : Bool := 200 ≤ r.status ∧ r.status < 300

/-- The typed errors thrown by the client (client/types.ts lines 268–309):
`AuthenticationError`, `RateLimitError`, `OverloadedError`, `APIError`. -/
inductive APIErrorM
  | authentication (message : String)
  | rateLimited (retryAfter : Option Int) (message : String)
  | overloaded (message : String)
  | api (statusCode : Nat) (errorType message : String)
deriving DecidableEq, Repr

/-- Embedding of `parseError` (api-client.ts lines 100–130). -/
def parseErrorM (r : HttpRespM) : APIErrorM :=
  let errorType := r.errType.getD "unknown_error"
  let errorMessage := r.errMsg.getD r.statusText
  if r.status = 401 then .authentication errorMessage
  else if r.status = 429 then .rateLimited r.retryAfter errorMessage
  else if r.status = 529 then .overloaded errorMessage
  else .api r.status errorType errorMessage

/-- One HTTP attempt as issued by `streamMessage`: the serialized request
body it POSTs and whether its `buildHeaders` call forced a credential
refresh. -/
structure AttemptM where
  body : String
  forceRefresh : Bool
deriving DecidableEq, Repr

/-- Embedding of `streamMessage`'s request/retry logic (api-client.ts lines
135–173): the list of attempts made, and either success (the SSE stream
is then consumed; its contents are out of scope here) or the typed error
thrown.  `r1` is the response to the first fetch, `r2` the response the
second fetch would get. -/
def streamMessageM (body : String) (r1 r2 : HttpRespM) :
    List AttemptM × Except APIErrorM Unit :=
  let attempts :=
    if r1.status = 401 then [⟨body, false⟩, ⟨body, true⟩] else [⟨body, false⟩]
  let final := if r1.status = 401 then r2 else r1
  (attempts, if respOk final then .ok () else .error (parseErrorM final))

/-! ## Messages and content blocks (`src/client/types.ts`)

The content-block union, restricted to the constructors the verified code
inspects; every other block kind (images, server tool uses, web-search
results, …) is collapsed into `other`, which all the filters below treat
the way the source treats a non-matching `type` tag.  A message's content
is either a plain string or a block array (`string | ContentBlock[]`).
-/

inductive RoleM
  | user
  | assistant
deriving DecidableEq, Repr

inductive CBlockM
  | text (t : String)
  | thinking (t : String) (signature : Option String)
  | toolUse (id name input : String)
  | toolResult (toolUseId : String) (content : String) (isError : Option Bool)
  | other
deriving DecidableEq, Repr

inductive MContentM
  | str (s : String)
  | blocks (bs : List CBlockM)
deriving DecidableEq, Repr

structure MessageM where
  role : RoleM
  content : MContentM
deriving DecidableEq, Repr

/-- The ids of the `tool_use` blocks of a content array
(`content.filter(block => block.type === 'tool_use')`, projected to ids). -/
def toolUseIds (bs : List CBlockM) : List String :=
  bs.filterMap fun
    | .toolUse id _ _ => some id
    | _ => none

/-- The `tool_use_id`s of the `tool_result` blocks of a content array
(the `resultIds` set of `loadTranscript`). -/
def resultIds (bs : List CBlockM) : List String :=
  bs.filterMap fun
    | .toolResult tid _ _ => some tid
    | _ => none

/-! ## Transcript load (`src/agent/transcript.ts`)

`loadTranscript` reads the JSONL file, skips malformed lines, keeps
`user`/`assistant` entries whose embedded message role matches, and then
scans the reconstructed list: the first assistant message with a
`tool_use` block not answered by a matching `tool_result` in the
immediately following user message truncates the history there
(transcript.ts lines 509–578).  JSON parsing itself is abstracted: a
transcript line is given as already parsed (`entry`) or `malformed`.

The current `loadTranscript` returns `{messages, truncation}` — its
caller `AgentLoop.loadSession` (loop.ts lines 96–118) destructures
`result.messages` and `result.truncation` and transcript.ts exports
`TruncationInfo` — but the copy of the function body available here
returns the bare message list, so the `TruncationInfo` wrapper is
modelled from the spec (see `loadTranscriptModel`).
-/

inductive TLineM
  /-- A line that parsed as JSON, with its `type` field and its `message`
  field (absent when the entry has no `message`). -/
  | entry (ty : String) (msg : Option MessageM)
  /-- A line `JSON.parse` rejected (skipped silently). -/
  | malformed
deriving DecidableEq, Repr

/-- The reconstruction loop of `loadTranscript` (transcript.ts lines
509–533): keep `user` entries whose message role is `user` and
`assistant` entries whose message role is `assistant`. -/
def reconstructMessages (lines : List TLineM) : List MessageM :=
  lines.filterMap fun
    | .malformed => none
    | .entry ty msg? =>
      match msg? with
      | none => none
      | some m =>
        if ty = "user" ∧ m.role = .user then some m
        else if ty = "assistant" ∧ m.role = .assistant then some m
        else none

/-- The violation test the validation loop applies at one message, given
the following message if any (transcript.ts lines 537–575): an assistant
message with block content and at least one `tool_use` violates unless the
next message is a user message with block content containing a matching
`tool_result` for every `tool_use` id. -/
def msgViolation (m : MessageM) (next? : Option MessageM) : Bool :=
  match m.role, m.content with
  | .assistant, .blocks bs =>
    let tus := toolUseIds bs
    if tus.isEmpty then false
    else
      match next? with
      | none => true
      | some nxt =>
        if nxt.role ≠ RoleM.user then true
        else
          match nxt.content with
          | .str _ => true
          | .blocks nbs =>
            ! (tus.all fun id => (resultIds nbs).contains id)
  | _, _ => false

/-- The validation scan (transcript.ts lines 537–576): walk the list in
order; at the first violating index `i` return `messages.slice(0, i)` and
report truncation, otherwise return the whole list.  The indexed `for`
loop is rendered as structural recursion: the messages before the cursor
are kept verbatim, and `rest.head?` is `messages[i + 1]`. -/
def validateScan : List MessageM → List MessageM × Bool
  | [] => ([], false)
  | m :: rest =>
    if msgViolation m rest.head? then ([], true)
    else
      let (kept, truncated) := validateScan rest
      (m :: kept, truncated)

/-- `TruncationInfo` (exported by transcript.ts; consumed by
`AgentLoop.loadSession`). -/
structure TruncationInfoM where
  truncated : Bool
  reason : Option String
deriving DecidableEq, Repr

structure LoadResultM where
  messages : List MessageM
  truncation : TruncationInfoM
deriving DecidableEq, Repr

/-- Modelled from the spec: the `{messages, truncation}` result shape of
`loadTranscript` is missing from this copy of transcript.ts (which returns
the bare list); per the spec's «record a `TruncationInfo{truncated:true,
reason}`, and return», the wrapper pairs the scanned list with
`truncated:true` and a human-readable reason exactly when the scan
truncated. -/
def loadTranscriptModel (lines : List TLineM) : LoadResultM :=
  let msgs := reconstructMessages lines
  let (kept, truncated) := validateScan msgs
  { messages := kept
    truncation :=
      if truncated then
        { truncated := true
          reason := some "tool_use without matching tool_result; truncated to recover" }
      else { truncated := false, reason := none } }

/-- The claim's violation condition, stated the way the claim states it:
an assistant message containing a `tool_use` block whose id has no
matching `tool_result` in the immediately following user message
(including the case where no following user message exists). -/
def specViolation (m : MessageM) (next? : Option MessageM) : Bool :=
  (m.role == RoleM.assistant) &&
    match m.content with
    | .str _ => false
    | .blocks bs =>
      (toolUseIds bs).any fun id =>
        ! (match next? with
          | some ⟨RoleM.user, .blocks nbs⟩ => (resultIds nbs).contains id
          | _ => false)

/-- Index of the first message at which `specViolation` holds. -/
def specFirstViolation : List MessageM → Option Nat
  | [] => none
  | m :: rest =>
    if specViolation m rest.head? then some 0
    else (specFirstViolation rest).map (· + 1)

/-! ## SSE parser (`src/utils/streaming.ts`)

`parseSSE` keeps an undecoded tail in `buffer`, splits `buffer + chunk`
on blank lines (`\n\n`), treats every part but the last as a complete
event, and parses each with `parseSSEEvent`; at end of stream a residual
buffer with non-whitespace content is parsed once more.  The byte stream
is modelled at character granularity (the `TextDecoder` in streaming mode
re-assembles code points split across chunks), a chunking of the input is
a list of character lists, and `JSON.parse` composed with the cast to
`StreamEvent` is an abstract partial function `J` (`none` = invalid
JSON). -/

/-- ASCII whitespace, as trimmed by `String.prototype.trim` (the non-ASCII
whitespace code points JS also trims cannot appear around the ASCII
`event:`/`data:` syntax this parser inspects in a well-formed stream and
are not modelled). -/
def isWS (c : Char) : Bool :=
  c = ' ' || c = '\t' || c = '\n' || c = '\r' || c = Char.ofNat 11 || c = Char.ofNat 12

/-- `String.prototype.trim`. -/
def trimM (l : List Char) : List Char :=
  ((l.dropWhile isWS).reverse.dropWhile isWS).reverse

/-- Split on the two-character separator `\n\n`, leftmost first,
non-overlapping — the behaviour of `buffer.split(/\n\n/)`.  Always returns
at least one part; the last part is the text after the final separator. -/
def splitNN : List Char → List (List Char)
  | [] => [[]]
  | '\n' :: '\n' :: rest => [] :: splitNN rest
  | c :: rest =>
    match splitNN rest with
    | [] => [[c]]
    | p :: ps => (c :: p) :: ps

/-- Split on `\n` — `eventText.split('\n')`. -/
def splitLines : List Char → List (List Char)
  | [] => [[]]
  | '\n' :: rest => [] :: splitLines rest
  | c :: rest =>
    match splitLines rest with
    | [] => [[c]]
    | p :: ps => (c :: p) :: ps

/-- One iteration of `parseSSEEvent`'s line loop (streaming.ts lines
94–103): the last `event: `-prefixed line (sliced and trimmed) and the
last `data: `-prefixed line (sliced, untrimmed) win; a bare `data:` line
resets data to empty. -/
def sseLineStep (acc : List Char × List Char) (line : List Char) :
    List Char × List Char :=
  if "event: ".toList.isPrefixOf line then (trimM (line.drop 7), acc.2)
  else if "data: ".toList.isPrefixOf line then (acc.1, line.drop 6)
  else if line = "data:".toList then (acc.1, [])
  else acc

/-- Embedding of `parseSSEEvent` (streaming.ts lines 89–116).  The final
`if (!eventType || !data) return null` drops events whose type or data is
empty, and `J` returning `none` models `JSON.parse` throwing. -/
def parseSSEEventM {α : Type} (J : String → Option α) (eventText : List Char) :
    Option α :=
  let st := (splitLines eventText).foldl sseLineStep ([], [])
  if st.1 = [] ∨ st.2 = [] then none
  else J (String.mk st.2)

/-- The read loop of `parseSSE` (streaming.ts lines 18–44), after the
`TextDecoder`: `buffer` is the retained last split part; each chunk is
appended, complete parts with non-whitespace content are parsed
(`extractCompleteEvents` + `parseSSEEvent`), and at end of stream a
buffer with non-whitespace content goes through `parseSSEBuffer`, which
re-splits and parses every part. -/
def parseSSEGo {α : Type} (J : String → Option α) :
    List Char → List (List Char) → List α
  | buffer, [] =>
    if trimM buffer = [] then []
    else (splitNN buffer).filterMap (parseSSEEventM J)
  | buffer, chunk :: rest =>
    let parts := splitNN (buffer ++ chunk)
    let complete := parts.dropLast.filter (fun p => trimM p ≠ [])
    complete.filterMap (parseSSEEventM J) ++ parseSSEGo J (parts.getLastD []) rest

/-- `parseSSE` applied to a chunked byte stream. -/
def parseSSEChunks {α : Type} (J : String → Option α) (chunks : List (List Char)) :
    List α :=
  parseSSEGo J [] chunks

/-- The chunking-independent meaning: split the whole input on blank
lines and parse every part. -/
def sseSpec {α : Type} (J : String → Option α) (input : List Char) : List α :=
  (splitNN input).filterMap (parseSSEEventM J)

/-! ## Hooks (`src/agent/hooks.ts`)

`HookRegistry.run` iterates the handlers registered for an event in
order.  A handler that disallows ends the run with its reason (defaulted
to `'Hook blocked the action'`); a `PreToolUse` handler's `modified`
replaces the input seen by later handlers and returned at the end;
non-empty reasons are collected and joined with `'; '`; a handler that
throws is logged and skipped.  Tool inputs — JSON values the harness only
threads through — are modelled by their source text.

The `appendToResult` member of `HookResult` is consumed by the loop
(loop.ts lines 435–437) but absent from this copy of hooks.ts, so its
declaration and its propagation through `run` are modelled from the spec
(see `HookResultM.appendToResult` and `hooksRunAux`). -/

structure HookInM where
  tool : String
  input : String
  /-- `PostToolUse` only. -/
  result : String := ""
  /-- `PostToolUse` only. -/
  isError : Bool := false
deriving DecidableEq, Repr

structure HookResultM where
  allow : Bool
  reason : Option String := none
  modified : Option String := none
  /-- Modelled from the spec: `HookResult.appendToResult` is missing from
  this copy of hooks.ts; the spec declares it on `HookResult` and says it
  «is concatenated onto the API-visible tool-result content». -/
  appendToResult : Option String := none
deriving DecidableEq, Repr

/-- A handler; `none` models a handler that throws (hooks.ts lines
110–113: logged, treated as permissive). -/
def HookHandlerM : Type := HookInM → Option HookResultM

/-- The loop of `HookRegistry.run` (hooks.ts lines 88–121).  `isPre`
distinguishes `PreToolUse` (input threading, `modified` in the combined
result) from other events.  `reasons` and `appends` are the collected
non-empty `reason`/`appendToResult` strings of allowing handlers; the
collection of `appends` and the joined `appendToResult` of the combined
result are modelled from the spec (see section comment). -/
def hooksRunAux (isPre : Bool) :
    List HookHandlerM → HookInM → List String → List String → HookResultM
  | [], cur, reasons, appends =>
    { allow := true
      reason := if reasons.isEmpty then none else some (String.intercalate "; " reasons)
      modified := if isPre then some cur.input else none
      appendToResult :=
        if appends.isEmpty then none else some (String.intercalate "\n\n" appends) }
  | h :: hs, cur, reasons, appends =>
    match h cur with
    | none => hooksRunAux isPre hs cur reasons appends
    | some r =>
      if ¬ r.allow then
        { allow := false, reason := some (r.reason.getD "Hook blocked the action") }
      else
        let cur' :=
          if isPre then
            match r.modified with
            | some m => { cur with input := m }
            | none => cur
          else cur
        let reasons' :=
          match r.reason with
          | some s => if s = "" then reasons else reasons ++ [s]
          | none => reasons
        let appends' :=
          match r.appendToResult with
          | some s => if s = "" then appends else appends ++ [s]
          | none => appends
        hooksRunAux isPre hs cur' reasons' appends'

/-- `HookRegistry.run` for an event with handler list `hs`. -/
def hooksRun (isPre : Bool) (hs : List HookHandlerM) (inp : HookInM) : HookResultM :=
  hooksRunAux isPre hs inp [] []

/-! ## Agent loop (`src/agent/loop.ts`)

The model of `AgentLoop.run`.  The per-turn model responses are a script
(one list of stream events per turn); tool execution, hook handlers and
the compaction callback are environment functions; and `cancel()` is the
tick at which the `cancelled` flag becomes true (see the header comment).
Events carry the fields the claims are about; the `sessionId` and
`totalUsage` fields that some events also carry in the source add nothing
to any claim and are tracked in the loop state instead. -/

structure UsageM where
  input_tokens : Int := 0
  output_tokens : Int := 0
  cache_creation_input_tokens : Option Int := none
  cache_read_input_tokens : Option Int := none
deriving DecidableEq, Repr

/-- `content_block_start` payloads (restricted to the locally handled
block kinds; `server_tool_use`/`web_search_tool_result` pass-through
blocks play no part in any claim). -/
inductive StartBlockM
  | text (t : String)
  | toolUse (id name : String)
  | thinking (t : String) (signature : Option String)
deriving DecidableEq, Repr

inductive DeltaM
  | textDelta (t : String)
  | inputJsonDelta (partialJson : String)
  | thinkingDelta (t : String)
  | signatureDelta (s : String)
deriving DecidableEq, Repr

inductive SEventM
  | messageStart (usage : UsageM)
  | contentBlockStart (index : Nat) (block : StartBlockM)
  | contentBlockDelta (index : Nat) (delta : DeltaM)
  | contentBlockStop (index : Nat)
  | messageDelta (stopReason : Option String) (outputTokens : Int)
  | messageStop
  | ping
deriving DecidableEq, Repr

/-- `AccumulatedContent` — one slot of the sparse `accumulated` array. -/
inductive AccM
  | text (t : String)
  | toolUse (id name input : String)
  | thinking (t : String) (signature : Option String)
deriving DecidableEq, Repr

/-- The agent events of `AgentEvent` that the model emits.  `toolUse`
carries the accumulated raw input text (the loop JSON-parses it before
yielding; the parse is abstracted away with the JSON values). -/
inductive AEventM
  | text (content : String)
  | thinking (content : String)
  | toolUse (id name input : String)
  | toolResult (id name content : String) (isError : Bool)
  | turnComplete (usage : UsageM) (turnNumber : Nat)
  | compact (previousMessageCount newMessageCount : Nat)
  | done (stopReason : String) (turnCount : Nat)
deriving DecidableEq, Repr

/-- `accumulated[i] = v` on a JavaScript array (padding with holes). -/
def setIdx (l : List (Option AccM)) (i : Nat) (v : AccM) : List (Option AccM) :=
  if i < l.length then l.set i (some v)
  else l ++ List.replicate (i - l.length) none ++ [some v]

/-- `accumulated[i]` (a hole reads as `undefined`). -/
def getIdx (l : List (Option AccM)) (i : Nat) : Option AccM :=
  (l.get? i).bind id

/-- Embedding of `AgentLoop.processStreamEvent` (loop.ts lines 523–648):
the new `accumulated` array and the agent event to yield, if any. -/
def processStreamEvent (acc : List (Option AccM)) :
    SEventM → List (Option AccM) × Option AEventM
  | .contentBlockStart i b =>
    match b with
    | .text t => (setIdx acc i (.text t), none)
    | .toolUse id name => (setIdx acc i (.toolUse id name ""), none)
    | .thinking t sig => (setIdx acc i (.thinking t sig), none)
  | .contentBlockDelta i d =>
    match getIdx acc i, d with
    | some (.text t), .textDelta s => (setIdx acc i (.text (t ++ s)), some (.text s))
    | some (.toolUse id name inp), .inputJsonDelta s =>
      (setIdx acc i (.toolUse id name (inp ++ s)), none)
    | some (.thinking t sig), .thinkingDelta s =>
      (setIdx acc i (.thinking (t ++ s) sig), none)
    | some (.thinking t sig), .signatureDelta s =>
      (setIdx acc i (.thinking t (some (sig.getD "" ++ s))), none)
    | _, _ => (acc, none)
  | .contentBlockStop i =>
    match getIdx acc i with
    | some (.thinking t _) => (acc, if t = "" then none else some (.thinking t))
    | some (.toolUse id name inp) =>
      (acc, if id = "" ∨ name = "" then none else some (.toolUse id name inp))
    | _ => (acc, none)
  | _ => (acc, none)

/-- Whether the `cancelled` flag, set by `cancel()` at tick `cancelAt`,
is observed true at tick `t`. -/
def canc (cancelAt : Option Nat) (t : Nat) : Bool :=
  match cancelAt with
  | none => false
  | some c => c ≤ t

structure StreamOutM where
  events : List AEventM
  acc : List (Option AccM)
  stopReason : Option String
  usage : UsageM
  time : Nat
deriving DecidableEq, Repr

/-- The stop-reason/usage tracking at the bottom of the stream loop
(loop.ts lines 260–268): `message_start` replaces the turn usage,
`message_delta` records the stop reason and the updated output tokens. -/
def trackEvent (e : SEventM) (sr : Option String) (u : UsageM) :
    Option String × UsageM :=
  match e with
  | .messageStart mu => (sr, mu)
  | .messageDelta msr ot => (msr, { u with output_tokens := ot })
  | _ => (sr, u)

/-- The `for await` stream loop of one turn (loop.ts lines 235–269):
`if (this.cancelled) break` at the top of each iteration, then
`processStreamEvent` (yielding its event, if any), then usage/stop-reason
tracking from `message_start`/`message_delta`.  Each iteration awaits the
next event: one tick. -/
def streamPhase (cancelAt : Option Nat) :
    List SEventM → List (Option AccM) → Option String → UsageM → Nat → StreamOutM
  | [], acc, sr, u, t => ⟨[], acc, sr, u, t⟩
  | e :: rest, acc, sr, u, t =>
    if canc cancelAt t then ⟨[], acc, sr, u, t⟩
    else
      let pe := processStreamEvent acc e
      let sru := trackEvent e sr u
      let out := streamPhase cancelAt rest pe.1 sru.1 sru.2 (t + 1)
      { out with events := pe.2.toList ++ out.events }

/-- What `toolRegistry.execute` resolves to. -/
structure ToolExecResM where
  content : String
  isError : Option Bool := none
deriving DecidableEq, Repr

/-- The tool_use accumulators selected for dispatch (loop.ts lines
361–364): `tool_use` entries with truthy id and name, in index order. -/
structure ToolUseM where
  id : String
  name : String
  input : String
deriving DecidableEq, Repr

def toolUsesOfAcc (acc : List (Option AccM)) : List ToolUseM :=
  acc.filterMap fun
    | some (.toolUse id name inp) =>
      if id = "" ∨ name = "" then none else some ⟨id, name, inp⟩
    | _ => none

/-- The environment of one `run()` call. -/
structure LoopEnvM where
  /-- The model's response stream, per turn (turn `n` streams
  `script[n-1]`). -/
  script : List (List SEventM)
  preHooks : List HookHandlerM
  postHooks : List HookHandlerM
  /-- `toolRegistry.execute`: `.error msg` models a thrown exception with
  that message (including `ToolNotFoundError`/`ToolTimeoutError`). -/
  toolExec : String → String → Except String ToolExecResM
  /-- `autoCompact.onCompact`; an inner `none` models the compactor
  throwing. -/
  onCompact : Option (List MessageM → Option (List MessageM))
  /-- The tick at which `cancel()` sets the flag (`none`: never). -/
  cancelAt : Option Nat

/-- The run parameters the model keeps symbolic. -/
structure LoopCfgM where
  maxTurns : Nat
  autoCompactEnabled : Bool := false
  thresholdPercent : Option Int := none
  maxContextTokens : Int := 200000
deriving DecidableEq, Repr

/-- Output of dispatching one `tool_use` block (the body of the `for
(const toolUse of toolUses)` loop, loop.ts lines 368–463): the
`tool_result` agent events yielded, the `tool_result` block pushed onto
`toolResults`, and the registry dispatches actually made. -/
structure ToolStepOutM where
  events : List AEventM
  resultBlock : CBlockM
  dispatched : List (String × String)
deriving Repr

def processToolUse (env : LoopEnvM) (tu : ToolUseM) : ToolStepOutM :=
  let input := tu.input
  let pre := hooksRun true env.preHooks { tool := tu.name, input := input }
  if ¬ pre.allow then
    let content := "Tool blocked: " ++ pre.reason.getD "Unknown reason"
    { events := [.toolResult tu.id tu.name content true]
      resultBlock := .toolResult tu.id content (some true)
      dispatched := [] }
  else
    let eff := pre.modified.getD input
    match env.toolExec tu.name eff with
    | .ok r =>
      let post := hooksRun false env.postHooks
        { tool := tu.name, input := eff, result := r.content
          isError := r.isError.getD false }
      let apiContent :=
        match post.appendToResult with
        | some a => if a = "" then r.content else r.content ++ "\n\n" ++ a
        | none => r.content
      { events := [.toolResult tu.id tu.name r.content (r.isError.getD false)]
        resultBlock := .toolResult tu.id apiContent r.isError
        dispatched := [(tu.name, eff)] }
    | .error msg =>
      let content := "Error: " ++ msg
      { events := [.toolResult tu.id tu.name content true]
        resultBlock := .toolResult tu.id content (some true)
        dispatched := [(tu.name, eff)] }

/-- The whole tool loop: events, the `toolResults` array, dispatches. -/
def toolPhase (env : LoopEnvM) :
    List ToolUseM → List AEventM × List CBlockM × List (String × String)
  | [] => ([], [], [])
  | tu :: rest =>
    let o := processToolUse env tu
    let t := toolPhase env rest
    (o.events ++ t.1, o.resultBlock :: t.2.1, o.dispatched ++ t.2.2)

/-- `buildAssistantContent` (loop.ts lines 654–713): drop holes, map
accumulators to content blocks preserving thinking signatures
(`tool_use` keeps its raw input text here, as in `AEventM.toolUse`). -/
def buildAssistantContent (acc : List (Option AccM)) : List CBlockM :=
  acc.filterMap fun
    | none => none
    | some (.thinking t sig) => some (.thinking t sig)
    | some (.text t) => some (.text t)
    | some (.toolUse id name inp) => some (.toolUse id name inp)

/-- A transcript write (`TranscriptWriter.writeUserMessage` /
`writeAssistantMessage` / `writeToolResultMessage`), reduced to the
message payload. -/
inductive TEntryM
  | userE (content : MContentM)
  | assistantE (content : List CBlockM) (stopReason : Option String) (usage : UsageM)
deriving DecidableEq, Repr

/-- `totalUsage` accumulation (loop.ts lines 283–290). -/
def addUsage (tot turn : UsageM) : UsageM :=
  { input_tokens := tot.input_tokens + turn.input_tokens
    output_tokens := tot.output_tokens + turn.output_tokens
    cache_creation_input_tokens :=
      some (tot.cache_creation_input_tokens.getD 0 + turn.cache_creation_input_tokens.getD 0)
    cache_read_input_tokens :=
      some (tot.cache_read_input_tokens.getD 0 + turn.cache_read_input_tokens.getD 0) }

/-- The loop-owned state a `run()` reads and writes: the outgoing
`messages` array, `this.conversationHistory`, the transcript writes so
far, the registry dispatches made so far (an observation used by the
theorems, not a source field), `totalUsage`, and the scheduling tick. -/
structure LoopStM where
  messages : List MessageM
  history : List MessageM
  transcript : List TEntryM
  dispatched : List (String × String)
  totalUsage : UsageM
  time : Nat

/-- The effective-context test of the auto-compact step (loop.ts lines
324–328), `(input_tokens − cache_read)/maxContextTokens ≥
(thresholdPercent ?? 80)/100` cross-multiplied (the JS comparison is on
floats; both sides here are exact). -/
def compactCondition (cfg : LoopCfgM) (turnUsage : UsageM) : Bool :=
  let effectiveTokens := turnUsage.input_tokens - turnUsage.cache_read_input_tokens.getD 0
  cfg.thresholdPercent.getD 80 * cfg.maxContextTokens ≤ effectiveTokens * 100

structure CompactOutM where
  messages : List MessageM
  events : List AEventM
  /-- Whether `autoCompact.onCompact` was called. -/
  invoked : Bool
  /-- Ticks consumed (the `await` of the compactor). -/
  tick : Nat
deriving Repr

/-- The auto-compact step (loop.ts lines 321–345): guarded by
`autoCompact.enabled && autoCompact.onCompact` and the threshold test;
on success replaces the messages and emits one `compact` event; a throwing
compactor is logged and leaves the messages unchanged. -/
def compactStep (cfg : LoopCfgM) (env : LoopEnvM) (turnUsage : UsageM)
    (messages : List MessageM) : CompactOutM :=
  if cfg.autoCompactEnabled then
    match env.onCompact with
    | some f =>
      if compactCondition cfg turnUsage then
        match f messages with
        | some newMsgs =>
          ⟨newMsgs, [.compact messages.length newMsgs.length], true, 1⟩
        | none => ⟨messages, [], true, 1⟩
      else ⟨messages, [], false, 0⟩
    | none => ⟨messages, [], false, 0⟩
  else ⟨messages, [], false, 0⟩

/-- Result of one iteration of the main `while` loop's body:
the events yielded, the state after, and whether the body fell through to
the next iteration (`next = false` means one of the body's `return`s ran
and the generator is finished). -/
structure TurnOutM where
  events : List AEventM
  st : LoopStM
  next : Bool

/-- One execution of the `while` body (loop.ts lines 211–494), for turn
number `turnNumber + 1`:

1. stream the scripted response through `processStreamEvent`;
2. `if (this.cancelled)`: yield `done{cancelled}` and return — the
   accumulated content is discarded, nothing is appended or written;
3. accumulate usage, yield `turn_complete` (one tick);
4. append the assistant message to `messages`, write it to the
   transcript, persist `history`;
5. the auto-compact step;
6. `stop_reason` branch: `end_turn`/`max_tokens` yield `done` and return;
   `tool_use` runs the tool loop (one tick per dispatched tool), appends
   the `tool_result` user message, writes it, persists `history`, and
   falls through; any other stop reason falls through unchanged. -/
def turnStep (env : LoopEnvM) (cfg : LoopCfgM) (turnNumber : Nat) (st : LoopStM) :
    TurnOutM :=
  let tn := turnNumber + 1
  let so := streamPhase env.cancelAt (env.script.getD turnNumber []) [] none {} st.time
  if canc env.cancelAt so.time then
    { events := so.events ++ [.done "cancelled" tn]
      st := { st with time := so.time }
      next := false }
  else
    let totalUsage := addUsage st.totalUsage so.usage
    let assistantContent := buildAssistantContent so.acc
    let messages1 := st.messages ++ [⟨.assistant, .blocks assistantContent⟩]
    let transcript1 := st.transcript ++ [.assistantE assistantContent so.stopReason so.usage]
    let co := compactStep cfg env so.usage messages1
    let evs := so.events ++ [.turnComplete so.usage tn] ++ co.events
    let t2 := so.time + 1 + co.tick
    if so.stopReason = some "end_turn" ∨ so.stopReason = some "max_tokens" then
      { events := evs ++ [.done (so.stopReason.getD "end_turn") tn]
        st := { st with messages := co.messages, history := co.messages
                        transcript := transcript1, totalUsage := totalUsage, time := t2 }
        next := false }
    else if so.stopReason = some "tool_use" then
      let tus := toolUsesOfAcc so.acc
      let tp := toolPhase env tus
      let messages3 := co.messages ++ [⟨.user, .blocks tp.2.1⟩]
      { events := evs ++ tp.1
        st := { st with messages := messages3, history := messages3
                        transcript := transcript1 ++ [.userE (.blocks tp.2.1)]
                        dispatched := st.dispatched ++ tp.2.2
                        totalUsage := totalUsage, time := t2 + tus.length }
        next := true }
    else
      { events := evs
        st := { st with messages := co.messages, history := co.messages
                        transcript := transcript1, totalUsage := totalUsage, time := t2 }
        next := true }

/-- The main `while (turnNumber < maxTurns && !this.cancelled)` loop:
`remaining = maxTurns − turnNumber` turns are still allowed.  When the
condition fails — the turn budget is exhausted **or the cancelled flag is
observed here** — the code after the loop yields
`done{stopReason:"max_turns"}` (loop.ts lines 496–503). -/
def runLoop (env : LoopEnvM) (cfg : LoopCfgM) :
    Nat → Nat → LoopStM → List AEventM × LoopStM
  | 0, turnNumber, st => ([.done "max_turns" turnNumber], st)
  | remaining + 1, turnNumber, st =>
    if canc env.cancelAt st.time then ([.done "max_turns" turnNumber], st)
    else
      let o := turnStep env cfg turnNumber st
      if o.next then
        let r := runLoop env cfg remaining (turnNumber + 1) o.st
        (o.events ++ r.1, r.2)
      else (o.events, o.st)

/-- `AgentLoop.run` (loop.ts lines 135–504): compose
`history + newMessages`, write the new user messages to the transcript,
and enter the loop at turn 0, tick 0, with `totalUsage` all zero. -/
def runAgent (env : LoopEnvM) (cfg : LoopCfgM)
    (history0 newMessages : List MessageM) : List AEventM × LoopStM :=
  runLoop env cfg cfg.maxTurns 0
    { messages := history0 ++ newMessages
      history := history0
      transcript := newMessages.filterMap fun m =>
        if m.role = .user then some (.userE m.content) else none
      dispatched := []
      totalUsage := { input_tokens := 0, output_tokens := 0
                      cache_creation_input_tokens := some 0
                      cache_read_input_tokens := some 0 }
      time := 0 }

/-! ### Concrete scenarios

Small closed instances of the loop environment, used to evaluate the
model at concrete inputs. -/

/-- A model turn that requests two tool calls and stops with
`stop_reason: "tool_use"`. -/
def toolUseTurnScript : List SEventM :=
  [.contentBlockStart 0 (.toolUse "t1" "A"), .contentBlockStop 0,
   .contentBlockStart 1 (.toolUse "t2" "B"), .contentBlockStop 1,
   .messageDelta (some "tool_use") 5]

/-- `cancel()` arrives at tick 7 — after the first tool call of the turn
has resolved (ticks: stream 0–4, `turn_complete` 5, tools 6 and 7) but
before the tool loop has finished. -/
def envCancelTools : LoopEnvM :=
  { script := [toolUseTurnScript]
    preHooks := []
    postHooks := []
    toolExec := fun n _ => .ok { content := "ok:" ++ n }
    onCompact := none
    cancelAt := some 7 }

def cfgCancelTools : LoopCfgM := { maxTurns := 3 }

/-- `cancel()` arrives at tick 2 — while the model stream of the first
turn is still being consumed. -/
def envCancelStream : LoopEnvM :=
  { script := [[.contentBlockStart 0 (.text ""), .contentBlockDelta 0 (.textDelta "hi"),
                .messageDelta (some "end_turn") 1]]
    preHooks := []
    postHooks := []
    toolExec := fun n _ => .ok { content := "ok:" ++ n }
    onCompact := none
    cancelAt := some 2 }

/-- A `PreToolUse` hook that denies every call with reason `deny write`. -/
def envHookBlock : LoopEnvM :=
  { script := [toolUseTurnScript]
    preHooks := [fun _ => some { allow := false, reason := some "deny write" }]
    postHooks := []
    toolExec := fun n _ => .ok { content := "ok:" ++ n }
    onCompact := none
    cancelAt := none }

/-- A `PostToolUse` hook that appends `lint: ok` to every tool result. -/
def envHookAppend : LoopEnvM :=
  { script := [toolUseTurnScript]
    preHooks := []
    postHooks := [fun _ => some { allow := true, appendToResult := some "lint: ok" }]
    toolExec := fun _ _ => .ok { content := "out" }
    onCompact := none
    cancelAt := none }

/-- A compactor that replaces the history with the empty list. -/
def envCompact : LoopEnvM :=
  { script := []
    preHooks := []
    postHooks := []
    toolExec := fun _ _ => .ok { content := "" }
    onCompact := some (fun _ => some [])
    cancelAt := none }

/-- The auto-compact scenario of the spec: `maxContextTokens = 1000`,
`thresholdPercent = 50`. -/
def cfgCompact : LoopCfgM :=
  { maxTurns := 1
    autoCompactEnabled := true
    thresholdPercent := some 50
    maxContextTokens := 1000 }

/-- The loop state at the top of the first turn of a fresh run with one
`user` message (what `runAgent` passes to `runLoop`). -/
def stInit : LoopStM :=
  { messages := [⟨.user, .str "go"⟩]
    history := []
    transcript := [.userE (.str "go")]
    dispatched := []
    totalUsage := { input_tokens := 0, output_tokens := 0
                    cache_creation_input_tokens := some 0
                    cache_read_input_tokens := some 0 }
    time := 0 }

/-! ## Helper lemmas -/

theorem mapSet_cons_eq {u : ToolDefM} {t : ToolDefM} (rest : List ToolDefM)
    (h : u.name = t.name) : mapSet (u :: rest) t = t :: rest := by
  simp [mapSet, h]

theorem mapSet_cons_ne {u : ToolDefM} {t : ToolDefM} (rest : List ToolDefM)
    (h : ¬ u.name = t.name) : mapSet (u :: rest) t = u :: mapSet rest t := by
  simp [mapSet, h]

theorem names_mapSet_mem (m : List ToolDefM) (t : ToolDefM) (x : String) :
    x ∈ (mapSet m t).map (·.name) → x ∈ m.map (·.name) ∨ x = t.name := by
  induction m with
  | nil =>
    intro hx
    right
    simpa [mapSet] using hx
  | cons u rest ih =>
    by_cases h : u.name = t.name
    · rw [mapSet_cons_eq rest h]
      simp only [List.map_cons, List.mem_cons]
      rintro (rfl | hx)
      · right; rfl
      · left; right; exact hx
    · rw [mapSet_cons_ne rest h]
      simp only [List.map_cons, List.mem_cons]
      rintro (rfl | hx)
      · left; left; rfl
      · rcases ih hx with h' | h'
        · left; right; exact h'
        · right; exact h'

theorem names_nodup_mapSet (m : List ToolDefM) (t : ToolDefM)
    (h : (m.map (·.name)).Nodup) : ((mapSet m t).map (·.name)).Nodup := by
  induction m with
  | nil => simp [mapSet]
  | cons u rest ih =>
    simp only [List.map_cons, List.nodup_cons] at h
    by_cases hu : u.name = t.name
    · rw [mapSet_cons_eq rest hu]
      simp only [List.map_cons, List.nodup_cons]
      exact ⟨hu ▸ h.1, h.2⟩
    · rw [mapSet_cons_ne rest hu]
      simp only [List.map_cons, List.nodup_cons]
      refine ⟨fun hx => ?_, ih h.2⟩
      rcases names_mapSet_mem rest t _ hx with h' | h'
      · exact h.1 h'
      · exact hu h'

theorem regGet_mapSet (m : List ToolDefM) (t : ToolDefM) (n : String) :
    regGet (mapSet m t) n = if t.name = n then some t else regGet m n := by
  induction m with
  | nil => simp [mapSet, regGet]
  | cons u rest ih =>
    by_cases hu : u.name = t.name
    · rw [mapSet_cons_eq rest hu]
      by_cases h : t.name = n
      · simp [regGet, h]
      · have hun : ¬ u.name = n := fun hc => h (hu ▸ hc)
        simp [regGet, h, hun]
    · rw [mapSet_cons_ne rest hu]
      by_cases h : u.name = n
      · have htn : ¬ t.name = n := fun hc => hu (h.trans hc.symm)
        simp [regGet, h, htn]
      · simp [regGet, h, ih]

theorem regGet_registerAll (ts : List ToolDefM) (m : List ToolDefM) (n : String) :
    regGet (registerAll m ts) n =
      (ts.reverse.find? (fun t => t.name = n)).or (regGet m n) := by
  induction ts generalizing m with
  | nil => simp [registerAll]
  | cons t rest ih =>
    have hstep : registerAll m (t :: rest) = registerAll (mapSet m t) rest := rfl
    rw [hstep, ih, List.reverse_cons, List.find?_append, regGet_mapSet]
    have h1 : ([t].find? (fun t => t.name = n)) = if t.name = n then some t else none := by
      by_cases h : t.name = n <;> simp [List.find?, h]
    rw [h1, Option.or_assoc]
    by_cases h : t.name = n <;> simp [h]

/-! ## Claim theorems: shell truncation (C9) -/

/-- **C9.** For every captured output string `s`, `truncateOutput` returns
`s` unchanged when its length is at most 30 000 characters, and otherwise
returns the first 30 000 characters of `s` followed by the trailing marker
`[Output truncated - N more characters not shown]` (after a blank line),
where `N = length s − 30000`. -/
theorem truncateOutput_spec (s : List Char) :
    (s.length ≤ 30000 → truncateOutput s = s) ∧
    (30000 < s.length →
      (truncateOutput s).take 30000 = s.take 30000 ∧
      (truncateOutput s).drop 30000 = truncationMarker (s.length - 30000) ∧
      truncateOutput s = s.take 30000 ++ truncationMarker (s.length - 30000)) := by
  constructor
  · intro h
    simp [truncateOutput, MAX_OUTPUT_LENGTH, h]
  · intro h
    have hle : ¬ s.length ≤ 30000 := by omega
    have heq : truncateOutput s = s.take 30000 ++ truncationMarker (s.length - 30000) := by
      simp [truncateOutput, MAX_OUTPUT_LENGTH, hle]
    have hlen : (s.take 30000).length = 30000 := by
      simp [List.length_take]
      omega
    refine ⟨?_, ?_, heq⟩
    · rw [heq, List.take_left' hlen]
    · rw [heq, List.drop_left' hlen]

/-- Witness for C9 at a concrete 30 001-character output. -/
theorem truncateOutput_spec_witness :
    30000 < (List.replicate 30001 'a').length ∧
    truncateOutput (List.replicate 30001 'a') =
      (List.replicate 30001 'a').take 30000 ++
        truncationMarker ((List.replicate 30001 'a').length - 30000) :=
  ⟨by rw [List.length_replicate]; omega,
   ((truncateOutput_spec (List.replicate 30001 'a')).2
     (by rw [List.length_replicate]; omega)).2.2⟩

/-! ## Claim theorems: tool registry (C10) -/

/-- **C10.** Registering a tool with an already-registered name replaces
the earlier definition in place (`regGet` after `register` returns the new
tool), the registry never holds two tools of the same name, a lookup in
the per-run registry built from `loop tools ++ run-parameter tools`
returns the **last** registration with that name, and consequently a
run-parameter tool shadows a same-named tool registered on the loop. -/
theorem toolRegistry_last_wins :
    (∀ m t, regGet (register m t) t.name = some t) ∧
    (∀ ts : List ToolDefM, ((registerAll [] ts).map (·.name)).Nodup) ∧
    (∀ loopTools params : List ToolDefM, ∀ n,
      regGet (runRegistry loopTools params) n
        = (loopTools ++ params).reverse.find? (fun t => t.name = n)) ∧
    (∀ loopTools params : List ToolDefM, ∀ n t,
      params.reverse.find? (fun t => t.name = n) = some t →
      regGet (runRegistry loopTools params) n = some t) := by
  have hall : ∀ (loopTools params : List ToolDefM) (n : String),
      regGet (runRegistry loopTools params) n
        = (loopTools ++ params).reverse.find? (fun t => t.name = n) := by
    intro loopTools params n
    rw [runRegistry, regGet_registerAll]
    simp [regGet]
  have hgen : ∀ (ts m : List ToolDefM), (m.map (·.name)).Nodup →
      ((registerAll m ts).map (·.name)).Nodup := by
    intro ts
    induction ts with
    | nil => intro m h; simpa [registerAll] using h
    | cons t rest ih =>
      intro m h
      have hstep : registerAll m (t :: rest) = registerAll (mapSet m t) rest := rfl
      rw [hstep]
      exact ih (mapSet m t) (names_nodup_mapSet m t h)
  refine ⟨?_, fun ts => hgen ts [] (by simp), hall, ?_⟩
  · intro m t
    rw [register, regGet_mapSet, if_pos rfl]
  · intro loopTools params n t hfind
    rw [hall, List.reverse_append, List.find?_append, hfind]
    rfl

/-- Witness for C10: a run-parameter `Bash` tool (tag 1) shadows the
loop-registered `Bash` tool (tag 0). -/
theorem toolRegistry_last_wins_witness :
    ([(⟨"Bash", 1⟩ : ToolDefM)].reverse.find? (fun t => t.name = "Bash")
        = some ⟨"Bash", 1⟩) ∧
    regGet (runRegistry [⟨"Bash", 0⟩] [⟨"Bash", 1⟩]) "Bash" = some ⟨"Bash", 1⟩ :=
  ⟨by decide,
   toolRegistry_last_wins.2.2.2 [⟨"Bash", 0⟩] [⟨"Bash", 1⟩] "Bash" ⟨"Bash", 1⟩ (by decide)⟩

/-! ## Claim theorems: MCP auto-restart (C7) -/

/-- **C7.** On a child exit outside shutdown the manager schedules a
reconnect iff auto-restart is enabled and the restart counter is strictly
below `maxRestarts`; when it does, the counter increments and the delay is
`min(1000·2^(newCount−1), 30000)` ms, so the `n`-th consecutive restart
attempt (counting from a successful connect, which resets the counter to
zero) is delayed `min(1000·2^(n−1), 30000)` ms. -/
theorem mcp_restart_policy :
    (∀ (cfg : MCPConfigM) (s : MCPStateM), s.shuttingDown = false →
      ((mcpStep cfg s .childExit).2.isSome
        ↔ (cfg.restartOnCrash = true ∧ s.restartCount < cfg.maxRestarts))) ∧
    (∀ (cfg : MCPConfigM) (s : MCPStateM), s.shuttingDown = false →
      cfg.restartOnCrash = true → s.restartCount < cfg.maxRestarts →
      mcpStep cfg s .childExit =
        ({ s with status := .disconnected, restartCount := s.restartCount + 1 },
         some (min (1000 * 2 ^ s.restartCount) 30000))) ∧
    (∀ (cfg : MCPConfigM) (s : MCPStateM),
      mcpStep cfg s .connectOk = ({ s with status := .connected, restartCount := 0 }, none)) ∧
    (∀ (cfg : MCPConfigM) (st : MCPStatusM) (k : Nat),
      cfg.restartOnCrash = true → k ≤ cfg.maxRestarts →
      mcpRunExits cfg ⟨st, 0, false⟩ k =
        (⟨if k = 0 then st else .disconnected, k, false⟩,
         (List.range k).map (fun i => min (1000 * 2 ^ i) 30000))) := by
  have hstep : ∀ (cfg : MCPConfigM) (s : MCPStateM), s.shuttingDown = false →
      cfg.restartOnCrash = true → s.restartCount < cfg.maxRestarts →
      mcpStep cfg s .childExit =
        ({ s with status := .disconnected, restartCount := s.restartCount + 1 },
         some (min (1000 * 2 ^ s.restartCount) 30000)) := by
    intro cfg s hsd hrc hlt
    simp [mcpStep, hsd, hrc, hlt]
  refine ⟨?_, hstep, ?_, ?_⟩
  · intro cfg s hsd
    constructor
    · intro hsome
      by_cases hrc : cfg.restartOnCrash = true
      · by_cases hlt : s.restartCount < cfg.maxRestarts
        · exact ⟨hrc, hlt⟩
        · rw [show mcpStep cfg s .childExit =
              ({ s with status := .disconnected }, none) by
            simp [mcpStep, hsd]
            intro h'
            omega] at hsome
          simp at hsome
      · rw [show mcpStep cfg s .childExit =
            ({ s with status := .disconnected }, none) by
          simp [mcpStep, hsd]
          intro h'
          exact absurd h' hrc] at hsome
        simp at hsome
    · rintro ⟨hrc, hlt⟩
      rw [hstep cfg s hsd hrc hlt]
      simp
  · intro cfg s
    simp [mcpStep]
  · intro cfg st k hrc hk
    have hgen : ∀ (k r : Nat) (st : MCPStatusM), r + k ≤ cfg.maxRestarts →
        mcpRunExits cfg ⟨st, r, false⟩ k =
          (⟨if k = 0 then st else .disconnected, r + k, false⟩,
           (List.range k).map (fun i => min (1000 * 2 ^ (r + i)) 30000)) := by
      intro k
      induction k with
      | zero => intro r st _; simp [mcpRunExits]
      | succ k ih =>
        intro r st hr
        have hlt : r < cfg.maxRestarts := by omega
        have h1 := hstep cfg ⟨st, r, false⟩ rfl hrc hlt
        have hlist :
            (1000 * 2 ^ r ⊓ 30000) ::
                List.map (fun i => 1000 * 2 ^ (r + 1 + i) ⊓ 30000) (List.range k)
              = List.map (fun i => 1000 * 2 ^ (r + i) ⊓ 30000) (List.range (k + 1)) := by
          rw [List.range_succ_eq_map, List.map_cons, List.map_map]
          refine congrArg₂ _ (by rw [Nat.add_zero]) (List.map_congr_left ?_)
          intro i _
          simp only [Function.comp_apply]
          have hie : r + 1 + i = r + (i + 1) := by omega
          rw [hie]
        simp only [mcpRunExits, h1, ih (r + 1) .disconnected (by omega)]
        simp only [Prod.mk.injEq, MCPStateM.mk.injEq]
        refine ⟨⟨?_, by omega, by trivial⟩, ?_⟩
        · by_cases hkz : k = 0 <;> simp [hkz]
        · simpa using hlist
    simpa using hgen k 0 st (by omega)

/-- Witness for C7: default config (limit 3), two consecutive exits
starting from a fresh counter give delays 1000 ms then 2000 ms. -/
theorem mcp_restart_policy_witness :
    (({ } : MCPConfigM).restartOnCrash = true ∧ 2 ≤ ({ } : MCPConfigM).maxRestarts) ∧
    mcpRunExits { } ⟨.connected, 0, false⟩ 2 =
      (⟨.disconnected, 2, false⟩, [1000, 2000]) := by
  have h := mcp_restart_policy.2.2.2 { } .connected 2 (by decide) (by decide)
  exact ⟨⟨by decide, by decide⟩, by rw [h]; rfl⟩

/-! ## Claim theorems: API client retry (C8) -/

/-- **C8.** `streamMessage` makes at most two HTTP attempts, every attempt
POSTs the same serialized body, a 401 first response triggers exactly one
credential-refreshing retry, a 401 on the retry surfaces as
`AuthenticationError`, and any non-OK status on the attempt that decides
the call surfaces as the typed error built by `parseError`. -/
theorem streamMessage_retry_policy (body : String) (r1 r2 : HttpRespM) :
    ((streamMessageM body r1 r2).1.length ≤ 2) ∧
    (∀ a ∈ (streamMessageM body r1 r2).1, a.body = body) ∧
    (r1.status = 401 →
      (streamMessageM body r1 r2).1 = [⟨body, false⟩, ⟨body, true⟩]) ∧
    (r1.status ≠ 401 → (streamMessageM body r1 r2).1 = [⟨body, false⟩]) ∧
    (r1.status = 401 → r2.status = 401 →
      (streamMessageM body r1 r2).2
        = .error (.authentication (r2.errMsg.getD r2.statusText))) ∧
    (r1.status ≠ 401 → respOk r1 = false →
      (streamMessageM body r1 r2).2 = .error (parseErrorM r1)) ∧
    (r1.status = 401 → respOk r2 = false →
      (streamMessageM body r1 r2).2 = .error (parseErrorM r2)) := by
  refine ⟨?_, ?_, ?_, ?_, ?_, ?_, ?_⟩
  · by_cases h : r1.status = 401 <;> simp [streamMessageM, h]
  · intro a ha
    by_cases h : r1.status = 401 <;>
      · simp only [streamMessageM, h, if_pos, if_neg, ite_true, ite_false] at ha
        first
          | (rcases List.mem_cons.1 ha with rfl | ha
             · rfl
             · rcases List.mem_cons.1 ha with rfl | ha
               · rfl
               · cases ha)
          | (rcases List.mem_cons.1 ha with rfl | ha
             · rfl
             · cases ha)
  · intro h; simp [streamMessageM, h]
  · intro h; simp [streamMessageM, h]
  · intro h1 h2
    have hok : respOk r2 = false := by
      simp only [respOk, h2]
      decide
    simp [streamMessageM, h1, hok, parseErrorM, h2]
  · intro h1 hok
    simp [streamMessageM, h1, hok]
  · intro h1 hok
    simp [streamMessageM, h1, hok]

/-- Witness for C8: a 401 first response followed by a 401 on the retry. -/
theorem streamMessage_retry_policy_witness :
    ((401 : Nat) = 401) ∧
    (streamMessageM "body" ⟨401, "Unauthorized", none, none, none⟩
        ⟨401, "Unauthorized", none, none, none⟩).2
      = .error (.authentication "Unauthorized") :=
  ⟨rfl,
   (streamMessage_retry_policy "body" ⟨401, "Unauthorized", none, none, none⟩
      ⟨401, "Unauthorized", none, none, none⟩).2.2.2.2.1 rfl rfl⟩

/-! ## Claim theorems: transcript load (C1) -/

theorem not_all_eq_any_not {α : Type} (l : List α) (p : α → Bool) :
    (! l.all p) = l.any (fun x => ! p x) := by
  induction l with
  | nil => rfl
  | cons x rest ih =>
    simp only [List.all_cons, List.any_cons, Bool.not_and, ih]

/-- The validation loop's test coincides with the claim's violation
condition. -/
theorem msgViolation_eq_specViolation (m : MessageM) (next? : Option MessageM) :
    msgViolation m next? = specViolation m next? := by
  rcases m with ⟨role, content⟩
  cases role with
  | user => cases content <;> simp [msgViolation, specViolation]
  | assistant =>
    cases content with
    | str s => simp [msgViolation, specViolation]
    | blocks bs =>
      by_cases hemp : (toolUseIds bs).isEmpty
      · rcases next? with _ | nxt
        · simp [msgViolation, specViolation, hemp, List.isEmpty_iff.1 hemp]
        · rcases nxt with ⟨nrole, ncontent⟩
          cases nrole <;> cases ncontent <;>
            simp [msgViolation, specViolation, hemp, List.isEmpty_iff.1 hemp]
      · have hne : toolUseIds bs ≠ [] := fun h => hemp (by simp [h])
        rcases List.exists_mem_of_ne_nil _ hne with ⟨x0, hx0⟩
        have hany : ∀ p : String → Bool, (∀ x, p x = true) →
            (toolUseIds bs).any p = true := by
          intro p hp
          exact List.any_eq_true.2 ⟨x0, hx0, hp x0⟩
        rcases next? with _ | nxt
        · have hL : msgViolation ⟨.assistant, .blocks bs⟩ none = true := by
            simp [msgViolation, hemp]
          have hR : specViolation ⟨.assistant, .blocks bs⟩ none = true := by
            simp only [specViolation]
            rw [Bool.and_eq_true]
            exact ⟨by simp, hany _ fun _ => by simp⟩
          rw [hL, hR]
        · rcases nxt with ⟨nrole, ncontent⟩
          cases nrole with
          | user =>
            cases ncontent with
            | str s =>
              have hL : msgViolation ⟨.assistant, .blocks bs⟩
                  (some ⟨.user, .str s⟩) = true := by
                simp [msgViolation, hemp]
              have hR : specViolation ⟨.assistant, .blocks bs⟩
                  (some ⟨.user, .str s⟩) = true := by
                simp only [specViolation]
                rw [Bool.and_eq_true]
                exact ⟨by simp, hany _ fun _ => by simp⟩
              rw [hL, hR]
            | blocks nbs =>
              have hL : msgViolation ⟨.assistant, .blocks bs⟩
                  (some ⟨.user, .blocks nbs⟩)
                  = ! ((toolUseIds bs).all fun id => (resultIds nbs).contains id) := by
                simp [msgViolation, hemp]
              have hR : specViolation ⟨.assistant, .blocks bs⟩
                  (some ⟨.user, .blocks nbs⟩)
                  = (toolUseIds bs).any fun id => ! (resultIds nbs).contains id := by
                simp [specViolation]
              rw [hL, hR, not_all_eq_any_not]
          | assistant =>
            cases ncontent with
            | str s =>
              have hL : msgViolation ⟨.assistant, .blocks bs⟩
                  (some ⟨.assistant, .str s⟩) = true := by
                simp [msgViolation, hemp]
              have hR : specViolation ⟨.assistant, .blocks bs⟩
                  (some ⟨.assistant, .str s⟩) = true := by
                simp only [specViolation]
                rw [Bool.and_eq_true]
                exact ⟨by simp, hany _ fun _ => by simp⟩
              rw [hL, hR]
            | blocks nbs =>
              have hL : msgViolation ⟨.assistant, .blocks bs⟩
                  (some ⟨.assistant, .blocks nbs⟩) = true := by
                simp [msgViolation, hemp]
              have hR : specViolation ⟨.assistant, .blocks bs⟩
                  (some ⟨.assistant, .blocks nbs⟩) = true := by
                simp only [specViolation]
                rw [Bool.and_eq_true]
                exact ⟨by simp, hany _ fun _ => by simp⟩
              rw [hL, hR]

/-- The scan returns the prefix before the first violating index. -/
theorem validateScan_eq_firstViolation (msgs : List MessageM) :
    validateScan msgs =
      match specFirstViolation msgs with
      | some i => (msgs.take i, true)
      | none => (msgs, false) := by
  induction msgs with
  | nil => rfl
  | cons m rest ih =>
    rw [validateScan, specFirstViolation, msgViolation_eq_specViolation]
    by_cases h : specViolation m rest.head? = true
    · simp [h]
    · rw [if_neg h, if_neg h, ih]
      rcases hfv : specFirstViolation rest with _ | i <;> simp [hfv]

/-- **C1.** Loading a transcript reconstructs the kept `user`/`assistant`
messages in order and scans them: at the first assistant message
containing a `tool_use` block whose id has no matching `tool_result` in
the immediately following user message (including when no following user
message exists), it returns exactly the messages strictly before that
assistant message and reports `truncated:true` with a reason; with no such
violation the full history is returned with `truncated:false`. -/
theorem loadTranscript_spec (lines : List TLineM) :
    loadTranscriptModel lines =
      match specFirstViolation (reconstructMessages lines) with
      | some i =>
        { messages := (reconstructMessages lines).take i
          truncation :=
            { truncated := true
              reason := some "tool_use without matching tool_result; truncated to recover" } }
      | none =>
        { messages := reconstructMessages lines
          truncation := { truncated := false, reason := none } } := by
  rw [loadTranscriptModel, validateScan_eq_firstViolation]
  rcases hfv : specFirstViolation (reconstructMessages lines) with _ | i <;> simp [hfv]

/-! ## Claim theorems: SSE parser (C6) -/

theorem splitNN_ne_nil (l : List Char) : splitNN l ≠ [] := by
  induction l using splitNN.induct with
  | case1 => simp [splitNN]
  | case2 rest ih => simp [splitNN]
  | case3 c rest h heq =>
    rw [splitNN.eq_3 c rest h, heq]
    simp
  | case4 c rest h p ps heq ih =>
    rw [splitNN.eq_3 c rest h, heq]
    simp

theorem splitNN_singleton (l : List Char) :
    ∀ p, splitNN l = [p] → p = l := by
  induction l using splitNN.induct with
  | case1 =>
    intro p h
    simp [splitNN] at h
    rw [h]
  | case2 rest ih =>
    intro p h
    rw [splitNN.eq_2] at h
    have := splitNN_ne_nil rest
    simp at h
    exact absurd h.2 this
  | case3 c rest h heq =>
    intro p _
    exact absurd heq (splitNN_ne_nil rest)
  | case4 c rest h p ps heq ih =>
    intro q hq
    rw [splitNN.eq_3 c rest h, heq] at hq
    simp at hq
    rcases hq with ⟨hq1, hq2⟩
    rw [← hq1, ih p (by rw [heq, hq2])]

/-- The incremental re-splitting step: splitting `a ++ b` is splitting
`a`, keeping all complete parts, and re-splitting the retained last part
prepended to `b` — the invariant behind `parseSSE`'s buffer. -/
theorem splitNN_append (a b : List Char) :
    splitNN (a ++ b) = (splitNN a).dropLast ++ splitNN ((splitNN a).getLastD [] ++ b) := by
  induction a using splitNN.induct with
  | case1 => simp [splitNN]
  | case2 rest ih =>
    have hne := splitNN_ne_nil rest
    have hstep : ('\n' :: '\n' :: rest) ++ b = '\n' :: '\n' :: (rest ++ b) := rfl
    rw [hstep, splitNN.eq_2, splitNN.eq_2, ih]
    rcases hs : splitNN rest with _ | ⟨p, ps⟩
    · exact absurd hs hne
    · simp
  | case3 c rest h heq ih => exact absurd heq (splitNN_ne_nil rest)
  | case4 c rest h p ps heq ih =>
    have hca : (c :: rest) ++ b = c :: (rest ++ b) := rfl
    rcases rest with _ | ⟨d, rest'⟩
    · have h1 : splitNN [c] = [[c]] := by
        rw [splitNN.eq_3 c [] (by intro r hc hr; cases hr), splitNN]
      rw [hca, h1]
      simp
    · have hcond : ∀ r₁, c = '\n' → (d :: rest') ++ b = '\n' :: r₁ → False := by
        intro r₁ hc hr
        injection hr with h1 h2
        exact h rest' hc (by rw [h1])
      rw [hca, splitNN.eq_3 c _ hcond, ih, splitNN.eq_3 c _ h, heq]
      rcases ps with _ | ⟨q, qs⟩
      · have hp : p = d :: rest' := splitNN_singleton _ p heq
        have hcond2 : ∀ r₁, c = '\n' → p ++ b = '\n' :: r₁ → False := by
          intro r₁ hc hr
          rw [hp] at hr
          injection hr with h1 h2
          exact h rest' hc (by rw [h1])
        rw [show ([p] : List (List Char)).getLastD [] = p from rfl,
            show ([c :: p] : List (List Char)).getLastD [] = c :: p from rfl,
            show (c :: p) ++ b = c :: (p ++ b) from rfl,
            splitNN.eq_3 c _ hcond2]
        simp
      · rfl

theorem splitNN_mem_sub (l : List Char) :
    ∀ p ∈ splitNN l, ∀ c ∈ p, c ∈ l := by
  induction l using splitNN.induct with
  | case1 =>
    intro p hp
    simp [splitNN] at hp
    simp [hp]
  | case2 rest ih =>
    intro p hp c hc
    rw [splitNN.eq_2] at hp
    rcases List.mem_cons.1 hp with rfl | hp
    · cases hc
    · exact List.mem_cons_of_mem _ (List.mem_cons_of_mem _ (ih p hp c hc))
  | case3 c rest h heq =>
    exact absurd heq (splitNN_ne_nil rest)
  | case4 c rest h p ps heq ih =>
    intro q hq x hx
    rw [splitNN.eq_3 c rest h, heq] at hq
    rcases List.mem_cons.1 hq with rfl | hq
    · rcases List.mem_cons.1 hx with rfl | hx
      · exact List.mem_cons_self _ _
      · exact List.mem_cons_of_mem _ (ih p (heq ▸ List.mem_cons_self _ _) x hx)
    · exact List.mem_cons_of_mem _ (ih q (heq ▸ List.mem_cons_of_mem _ hq) x hx)

theorem splitLines_mem_sub (l : List Char) :
    ∀ p ∈ splitLines l, ∀ c ∈ p, c ∈ l := by
  induction l using splitLines.induct with
  | case1 =>
    intro p hp
    simp [splitLines] at hp
    simp [hp]
  | case2 rest ih =>
    intro p hp c hc
    rw [splitLines.eq_2] at hp
    rcases List.mem_cons.1 hp with rfl | hp
    · cases hc
    · exact List.mem_cons_of_mem _ (ih p hp c hc)
  | case3 c rest h heq =>
    intro q hq x hx
    rw [splitLines.eq_3 c rest h, heq] at hq
    rcases List.mem_cons.1 hq with rfl | hq
    · rcases List.mem_cons.1 hx with rfl | hx
      · exact List.mem_cons_self _ _
      · cases hx
    · cases hq
  | case4 c rest h p ps heq ih =>
    intro q hq x hx
    rw [splitLines.eq_3 c rest h, heq] at hq
    rcases List.mem_cons.1 hq with rfl | hq
    · rcases List.mem_cons.1 hx with rfl | hx
      · exact List.mem_cons_self _ _
      · exact List.mem_cons_of_mem _ (ih p (heq ▸ List.mem_cons_self _ _) x hx)
    · exact List.mem_cons_of_mem _ (ih q (heq ▸ List.mem_cons_of_mem _ hq) x hx)

theorem trimM_eq_nil_all_ws (l : List Char) (h : trimM l = []) :
    ∀ c ∈ l, isWS c = true := by
  intro c hc
  unfold trimM at h
  have h1 : (l.dropWhile isWS).reverse.dropWhile isWS = [] := by
    rcases he : (l.dropWhile isWS).reverse.dropWhile isWS with _ | ⟨x, xs⟩
    · rfl
    · rw [he] at h
      simp at h
  have h2 : ∀ x ∈ (l.dropWhile isWS).reverse, isWS x = true := by
    intro x hx
    have := List.dropWhile_eq_nil_iff.1 h1
    exact this x hx
  have h3 : ∀ x ∈ l.dropWhile isWS, isWS x = true := by
    intro x hx
    exact h2 x (List.mem_reverse.2 hx)
  have hsplit : l.takeWhile isWS ++ l.dropWhile isWS = l :=
    List.takeWhile_append_dropWhile isWS l
  rw [← hsplit] at hc
  rcases List.mem_append.1 hc with hc | hc
  · exact List.mem_takeWhile_imp hc
  · exact h3 c hc

theorem sseLineStep_ws (acc : List Char × List Char) (line : List Char)
    (h : ∀ c ∈ line, isWS c = true) : sseLineStep acc line = acc := by
  have hpre : ∀ (pre : List Char) (c : Char), c ∈ pre → isWS c = false →
      ¬ (pre <+: line) := by
    intro pre c hc hws hp
    rcases hp with ⟨t, rfl⟩
    have := h c (List.mem_append.2 (Or.inl hc))
    rw [this] at hws
    cases hws
  have h1 : ¬ (['e', 'v', 'e', 'n', 't', ':', ' '] <+: line) :=
    hpre _ 'e' (by decide) (by decide)
  have h2 : ¬ (['d', 'a', 't', 'a', ':', ' '] <+: line) :=
    hpre _ 'd' (by decide) (by decide)
  have h3 : line ≠ ['d', 'a', 't', 'a', ':'] := by
    intro hl
    have : isWS 'd' = true := h 'd' (by rw [hl]; decide)
    cases this
  simp [sseLineStep, h1, h2, h3]

/-- An all-whitespace part parses to nothing: no line of it can carry an
`event:` type, so `parseSSEEvent` returns `null`. -/
theorem parseSSEEventM_ws {α : Type} (J : String → Option α) (part : List Char)
    (h : ∀ c ∈ part, isWS c = true) : parseSSEEventM J part = none := by
  have hlines : ∀ line ∈ splitLines part, ∀ c ∈ line, isWS c = true :=
    fun line hl c hc => h c (splitLines_mem_sub part line hl c hc)
  have hfold : ∀ (ls : List (List Char)), (∀ line ∈ ls, ∀ c ∈ line, isWS c = true) →
      ls.foldl sseLineStep (([], []) : List Char × List Char) = ([], []) := by
    intro ls
    induction ls with
    | nil => intro _; rfl
    | cons x xs ih =>
      intro hx
      rw [List.foldl_cons, sseLineStep_ws _ x (hx x (List.mem_cons_self _ _))]
      exact ih fun line hl => hx line (List.mem_cons_of_mem _ hl)
  rw [parseSSEEventM, hfold (splitLines part) hlines]
  simp

/-- The `parts[i].trim()` filter of `extractCompleteEvents` changes no
output: whitespace-only parts parse to nothing anyway. -/
theorem filterMap_trim_filter {α : Type} (J : String → Option α)
    (parts : List (List Char)) :
    (parts.filter (fun p => trimM p ≠ [])).filterMap (parseSSEEventM J)
      = parts.filterMap (parseSSEEventM J) := by
  induction parts with
  | nil => rfl
  | cons p ps ih =>
    by_cases hp : trimM p = []
    · rw [List.filter_cons, if_neg (by simp [hp]), List.filterMap_cons,
        parseSSEEventM_ws J p (trimM_eq_nil_all_ws p hp), ih]
    · rw [List.filter_cons, if_pos (by simp [hp]), List.filterMap_cons, List.filterMap_cons]
      cases parseSSEEventM J p <;> rw [ih]

theorem sseSpec_ws {α : Type} (J : String → Option α) (buffer : List Char)
    (h : trimM buffer = []) : sseSpec J buffer = [] := by
  rw [sseSpec, List.filterMap_eq_nil_iff]
  intro p hp
  exact parseSSEEventM_ws J p fun c hc =>
    trimM_eq_nil_all_ws buffer h c (splitNN_mem_sub buffer p hp c hc)

/-- The read loop computes the one-shot split of `buffer` followed by all
remaining input. -/
theorem parseSSEGo_spec {α : Type} (J : String → Option α)
    (chunks : List (List Char)) :
    ∀ buffer, parseSSEGo J buffer chunks = sseSpec J (buffer ++ chunks.flatten) := by
  induction chunks with
  | nil =>
    intro buffer
    rw [parseSSEGo, List.flatten_nil, List.append_nil]
    by_cases h : trimM buffer = []
    · rw [if_pos h, sseSpec_ws J buffer h]
    · rw [if_neg h, sseSpec]
  | cons chunk rest ih =>
    intro buffer
    have hL : parseSSEGo J buffer (chunk :: rest)
        = ((splitNN (buffer ++ chunk)).dropLast.filter
            (fun p => trimM p ≠ [])).filterMap (parseSSEEventM J)
          ++ parseSSEGo J ((splitNN (buffer ++ chunk)).getLastD []) rest := rfl
    rw [hL, ih, filterMap_trim_filter]
    have hflat : buffer ++ (chunk :: rest).flatten = (buffer ++ chunk) ++ rest.flatten := by
      simp
    rw [hflat]
    simp only [sseSpec]
    rw [splitNN_append (buffer ++ chunk) rest.flatten, List.filterMap_append]

/-- **C6.** `parseSSE` is chunk-boundary invariant: for every input and
every partition of it into chunks it yields `sseSpec` of the whole input
— so any two chunkings of the same byte sequence yield the same event
sequence — and an SSE event part that lacks an `event:` type line, lacks
(non-empty) data, or whose data `J` rejects as invalid JSON contributes
no event to the output. -/
theorem parseSSE_chunk_invariant {α : Type} (J : String → Option α) :
    (∀ chunks : List (List Char),
      parseSSEChunks J chunks = sseSpec J chunks.flatten) ∧
    (∀ chunks chunks' : List (List Char), chunks.flatten = chunks'.flatten →
      parseSSEChunks J chunks = parseSSEChunks J chunks') ∧
    (∀ part : List Char,
      ((splitLines part).foldl sseLineStep ([], [])).1 = [] ∨
        ((splitLines part).foldl sseLineStep ([], [])).2 = [] ∨
        J (String.mk (((splitLines part).foldl sseLineStep ([], [])).2)) = none →
      parseSSEEventM J part = none) := by
  have hmain : ∀ chunks : List (List Char),
      parseSSEChunks J chunks = sseSpec J chunks.flatten := by
    intro chunks
    rw [parseSSEChunks, parseSSEGo_spec J chunks []]
    rfl
  refine ⟨hmain, ?_, ?_⟩
  · intro chunks chunks' h
    rw [hmain, hmain, h]
  · intro part h
    simp only [parseSSEEventM]
    rcases h with h | h | h
    · rw [if_pos (Or.inl h)]
    · rw [if_pos (Or.inr h)]
    · by_cases he : ((splitLines part).foldl sseLineStep ([], [])).1 = []
      · rw [if_pos (Or.inl he)]
      · by_cases hd : ((splitLines part).foldl sseLineStep ([], [])).2 = []
        · rw [if_pos (Or.inr hd)]
        · rw [if_neg (by push_neg; exact ⟨he, hd⟩)]
          exact h

/-- Witness for C6: `data: {}` split mid-line across two chunks parses
identically to the unsplit input, and a typeless event is dropped. -/
theorem parseSSE_chunk_invariant_witness :
    parseSSEChunks (fun s => if s = "{}" then some 7 else none)
        ["event: ping\nda".toList, "ta: {}\n\nrest".toList]
      = parseSSEChunks (fun s => if s = "{}" then some 7 else none)
        ["event: ping\ndata: {}\n\nrest".toList] ∧
    parseSSEChunks (fun s => if s = "{}" then some 7 else none)
        ["event: ping\ndata: {}\n\nrest".toList] = [7] ∧
    parseSSEEventM (fun s => if s = "{}" then some 7 else none)
        "data: {}".toList = none := by
  refine ⟨?_, by decide, ?_⟩
  · exact (parseSSE_chunk_invariant
      (fun s => if s = "{}" then some (7 : Nat) else none)).2.1 _ _ (by decide)
  · exact (parseSSE_chunk_invariant
      (fun s => if s = "{}" then some (7 : Nat) else none)).2.2 _ (Or.inl (by decide))

/-! ## Claim theorems: cancellation (C2) -/

theorem streamPhase_time_mono (ca : Option Nat) (evs : List SEventM) :
    ∀ acc sr u t, t ≤ (streamPhase ca evs acc sr u t).time := by
  induction evs with
  | nil => intro acc sr u t; simp [streamPhase]
  | cons e rest ih =>
    intro acc sr u t
    rw [streamPhase]
    by_cases hc : canc ca t = true
    · rw [if_pos hc]
    · rw [if_neg hc]
      exact Nat.le_trans (Nat.le_succ t)
        (ih (processStreamEvent acc e).1 (trackEvent e sr u).1 (trackEvent e sr u).2 (t + 1))

/-- While running, one stream event is consumed per tick and emits at most
one agent event, so once `cancel()` lands at tick `c` (with the loop
entered before `c`), the stream loop stops by tick `c` and everything it
emitted was emitted before `c`. -/
theorem streamPhase_cancel_bound (c : Nat) (evs : List SEventM) :
    ∀ acc sr u t, t ≤ c →
      (streamPhase (some c) evs acc sr u t).time ≤ c ∧
      (streamPhase (some c) evs acc sr u t).events.length
        ≤ (streamPhase (some c) evs acc sr u t).time - t := by
  induction evs with
  | nil =>
    intro acc sr u t ht
    constructor
    · simpa [streamPhase] using ht
    · simp [streamPhase]
  | cons e rest ih =>
    intro acc sr u t ht
    rw [streamPhase]
    by_cases hc : canc (some c) t = true
    · rw [if_pos hc]
      exact ⟨ht, by simp⟩
    · rw [if_neg hc]
      have htc : t + 1 ≤ c := by
        simp [canc] at hc
        omega
      obtain ⟨h1, h2⟩ :=
        ih (processStreamEvent acc e).1 (trackEvent e sr u).1 (trackEvent e sr u).2 (t + 1) htc
      have hmono := streamPhase_time_mono (some c)
        rest (processStreamEvent acc e).1 (trackEvent e sr u).1 (trackEvent e sr u).2 (t + 1)
      refine ⟨h1, ?_⟩
      have hlen : (processStreamEvent acc e).2.toList.length ≤ 1 := by
        cases (processStreamEvent acc e).2 <;> simp
      simp only [List.length_append]
      omega

/-- **C2 (amended).** If `cancel()` lands while the model stream of a turn
is being consumed — the flag, set at tick `c`, is observed at the
post-stream check — then the loop emits, beyond the events the stream
phase yielded strictly before `c`, exactly one event:
`done{stopReason:"cancelled"}`; and the state is unchanged except for the
clock — in particular no partial assistant message is appended to
`messages`, `history`, or the transcript. -/
theorem cancel_mid_stream (env : LoopEnvM) (cfg : LoopCfgM)
    (remaining turnNumber : Nat) (st : LoopStM) (c : Nat)
    (hca : env.cancelAt = some c)
    (h0 : canc env.cancelAt st.time = false)
    (hc : canc env.cancelAt
      (streamPhase env.cancelAt (env.script.getD turnNumber []) [] none {} st.time).time
        = true) :
    runLoop env cfg (remaining + 1) turnNumber st
      = ((streamPhase env.cancelAt (env.script.getD turnNumber []) [] none {} st.time).events
          ++ [.done "cancelled" (turnNumber + 1)],
         { st with time :=
            (streamPhase env.cancelAt (env.script.getD turnNumber []) [] none {} st.time).time }) ∧
    (streamPhase env.cancelAt (env.script.getD turnNumber []) [] none {} st.time).events.length
      ≤ c - st.time := by
  have hst : canc env.cancelAt st.time ≠ true := by
    rw [h0]
    simp
  have hts : turnStep env cfg turnNumber st =
      { events :=
          (streamPhase env.cancelAt (env.script.getD turnNumber []) [] none {} st.time).events
            ++ [.done "cancelled" (turnNumber + 1)]
        st := { st with time :=
          (streamPhase env.cancelAt (env.script.getD turnNumber []) [] none {} st.time).time }
        next := false } := by
    rw [turnStep, if_pos hc]
  constructor
  · rw [runLoop, if_neg hst, hts]
    rfl
  · have hle : st.time ≤ c := by
      rw [hca] at h0
      simp [canc] at h0
      omega
    rw [hca] at hc ⊢
    have := (streamPhase_cancel_bound c (env.script.getD turnNumber []) [] none {} st.time hle)
    have hb := (streamPhase_cancel_bound c (env.script.getD turnNumber []) [] none {} st.time hle).1
    omega

/-- Witness for the amended C2: cancellation at tick 2, mid-stream of the
first turn, yields exactly `[text "hi", done "cancelled"]` and leaves the
state untouched. -/
theorem cancel_mid_stream_witness :
    envCancelStream.cancelAt = some 2 ∧
    canc envCancelStream.cancelAt stInit.time = false ∧
    canc envCancelStream.cancelAt
      (streamPhase envCancelStream.cancelAt (envCancelStream.script.getD 0 [])
        [] none {} stInit.time).time = true ∧
    runLoop envCancelStream cfgCancelTools 3 0 stInit
      = ((streamPhase envCancelStream.cancelAt (envCancelStream.script.getD 0 [])
            [] none {} stInit.time).events ++ [.done "cancelled" 1],
         { stInit with time :=
            (streamPhase envCancelStream.cancelAt (envCancelStream.script.getD 0 [])
              [] none {} stInit.time).time }) :=
  ⟨rfl, by decide, by decide,
   (cancel_mid_stream envCancelStream cfgCancelTools 2 0 stInit 2 rfl
     (by decide) (by decide)).1⟩

/-- Counterexample to C2 as stated: `cancel()` lands at tick 7, during the
turn's tool-dispatch phase (stream ticks 0–4, `turn_complete` tick 5,
tool ticks 6 and 7, final loop check at tick 8).  The run nevertheless
emits the second tool's `tool_result` after the cancellation tick and
terminates with `done{stopReason:"max_turns"}` — more than one further
event after `cancel()`, and no `done{stopReason:"cancelled"}` at all. -/
theorem cancel_during_tools_counterexample :
    envCancelTools.cancelAt = some 7 ∧
    (runAgent envCancelTools cfgCancelTools [] [⟨.user, .str "go"⟩]).2.time = 8 ∧
    (runAgent envCancelTools cfgCancelTools [] [⟨.user, .str "go"⟩]).1
      = [.toolUse "t1" "A" "", .toolUse "t2" "B" "",
         .turnComplete ⟨0, 5, none, none⟩ 1,
         .toolResult "t1" "A" "ok:A" false,
         .toolResult "t2" "B" "ok:B" false,
         .done "max_turns" 1] ∧
    AEventM.done "cancelled" 1 ∉
      (runAgent envCancelTools cfgCancelTools [] [⟨.user, .str "go"⟩]).1 :=
  ⟨rfl, by decide, by decide, by decide⟩

/-! ## Claim theorems: tool hooks and auto-compact (C3, C4, C5) -/

/-- In the `stop_reason === "tool_use"` branch of an uncancelled turn the
body falls through to the next loop iteration, and the `toolResults`
batch is appended to the outgoing messages as one user message. -/
theorem turnStep_tool_use_branch (env : LoopEnvM) (cfg : LoopCfgM)
    (turnNumber : Nat) (st : LoopStM)
    (hnc : env.cancelAt = none)
    (hsr : (streamPhase env.cancelAt (env.script.getD turnNumber []) [] none {} st.time).stopReason
      = some "tool_use") :
    (turnStep env cfg turnNumber st).next = true ∧
    (turnStep env cfg turnNumber st).st.messages
      = (compactStep cfg env
          (streamPhase env.cancelAt (env.script.getD turnNumber []) [] none {} st.time).usage
          (st.messages ++ [⟨.assistant, .blocks (buildAssistantContent
            (streamPhase env.cancelAt (env.script.getD turnNumber []) [] none {} st.time).acc)⟩])).messages
        ++ [⟨.user, .blocks (toolPhase env (toolUsesOfAcc
            (streamPhase env.cancelAt (env.script.getD turnNumber []) [] none {} st.time).acc)).2.1⟩] := by
  have hcf : ¬ canc env.cancelAt
      (streamPhase env.cancelAt (env.script.getD turnNumber []) [] none {} st.time).time
        = true := by
    rw [hnc]
    simp [canc]
  simp only [turnStep]
  rw [if_neg hcf, hsr]
  simp

/-- The `stop_reason === "end_turn"` branch of an uncancelled turn:
history ends up as the compact step's result, and the emitted events are
the stream events, `turn_complete`, the compact step's events, and
`done{"end_turn"}`. -/
theorem turnStep_end_turn_branch (env : LoopEnvM) (cfg : LoopCfgM)
    (turnNumber : Nat) (st : LoopStM)
    (hnc : env.cancelAt = none)
    (hsr : (streamPhase env.cancelAt (env.script.getD turnNumber []) [] none {} st.time).stopReason
      = some "end_turn") :
    (turnStep env cfg turnNumber st).st.history
      = (compactStep cfg env
          (streamPhase env.cancelAt (env.script.getD turnNumber []) [] none {} st.time).usage
          (st.messages ++ [⟨.assistant, .blocks (buildAssistantContent
            (streamPhase env.cancelAt (env.script.getD turnNumber []) [] none {} st.time).acc)⟩])).messages ∧
    (turnStep env cfg turnNumber st).events
      = (streamPhase env.cancelAt (env.script.getD turnNumber []) [] none {} st.time).events
        ++ [.turnComplete
              (streamPhase env.cancelAt (env.script.getD turnNumber []) [] none {} st.time).usage
              (turnNumber + 1)]
        ++ (compactStep cfg env
            (streamPhase env.cancelAt (env.script.getD turnNumber []) [] none {} st.time).usage
            (st.messages ++ [⟨.assistant, .blocks (buildAssistantContent
              (streamPhase env.cancelAt (env.script.getD turnNumber []) [] none {} st.time).acc)⟩])).events
        ++ [.done "end_turn" (turnNumber + 1)] := by
  have hcf : ¬ canc env.cancelAt
      (streamPhase env.cancelAt (env.script.getD turnNumber []) [] none {} st.time).time
        = true := by
    rw [hnc]
    simp [canc]
  simp only [turnStep]
  rw [if_neg hcf, hsr]
  simp

/-- **C3.** If the combined `PreToolUse` result for a tool call denies
with reason `r`, the tool's `execute` is never dispatched, the loop
synthesizes a `tool_result` with `is_error: true` whose content is exactly
`"Tool blocked: " ++ r` (both as the emitted agent event and as the block
fed back to the model), the remaining tool calls of the turn are still
processed, and the loop falls through to the next turn. -/
theorem preToolUse_block (env : LoopEnvM) (tu : ToolUseM) (rest : List ToolUseM) (r : String)
    (hallow : (hooksRun true env.preHooks { tool := tu.name, input := tu.input }).allow = false)
    (hreason : (hooksRun true env.preHooks { tool := tu.name, input := tu.input }).reason
      = some r) :
    processToolUse env tu =
      { events := [.toolResult tu.id tu.name ("Tool blocked: " ++ r) true]
        resultBlock := .toolResult tu.id ("Tool blocked: " ++ r) (some true)
        dispatched := [] } ∧
    toolPhase env (tu :: rest) =
      (.toolResult tu.id tu.name ("Tool blocked: " ++ r) true :: (toolPhase env rest).1,
       .toolResult tu.id ("Tool blocked: " ++ r) (some true) :: (toolPhase env rest).2.1,
       (toolPhase env rest).2.2) ∧
    (∀ cfg turnNumber st, env.cancelAt = none →
      (streamPhase env.cancelAt (env.script.getD turnNumber []) [] none {} st.time).stopReason
        = some "tool_use" →
      (turnStep env cfg turnNumber st).next = true) := by
  have h1 : processToolUse env tu =
      { events := [.toolResult tu.id tu.name ("Tool blocked: " ++ r) true]
        resultBlock := .toolResult tu.id ("Tool blocked: " ++ r) (some true)
        dispatched := [] } := by
    simp only [processToolUse, hallow, hreason]
    simp
  refine ⟨h1, ?_, ?_⟩
  · rw [toolPhase, h1]
    rfl
  · intro cfg turnNumber st hnc hsr
    exact (turnStep_tool_use_branch env cfg turnNumber st hnc hsr).1

/-- Witness for C3: a hook denying `Write` with reason `deny write`
produces exactly the content `"Tool blocked: deny write"` and no
dispatch. -/
theorem preToolUse_block_witness :
    ((hooksRun true envHookBlock.preHooks { tool := "Write", input := "{}" }).allow = false) ∧
    ((hooksRun true envHookBlock.preHooks { tool := "Write", input := "{}" }).reason
      = some "deny write") ∧
    processToolUse envHookBlock ⟨"w1", "Write", "{}"⟩ =
      { events := [.toolResult "w1" "Write" "Tool blocked: deny write" true]
        resultBlock := .toolResult "w1" "Tool blocked: deny write" (some true)
        dispatched := [] } :=
  ⟨by decide, by decide,
   (preToolUse_block envHookBlock ⟨"w1", "Write", "{}"⟩ [] "deny write"
     (by decide) (by decide)).1⟩

/-- **C4.** When a tool call executes and the combined `PostToolUse`
result carries a non-empty `appendToResult` string `a`, the API-visible
`tool_result` block fed back to the model carries the tool's content with
`a` concatenated on (after a blank line); the block lands in the
`tool_result` user message appended to the outgoing history. -/
theorem postToolUse_append (env : LoopEnvM) (tu : ToolUseM) (tr : ToolExecResM) (a : String)
    (hallow : (hooksRun true env.preHooks { tool := tu.name, input := tu.input }).allow = true)
    (hexec : env.toolExec tu.name
        ((hooksRun true env.preHooks { tool := tu.name, input := tu.input }).modified.getD tu.input)
      = .ok tr)
    (happ : (hooksRun false env.postHooks
        { tool := tu.name
          input := (hooksRun true env.preHooks
            { tool := tu.name, input := tu.input }).modified.getD tu.input
          result := tr.content
          isError := tr.isError.getD false }).appendToResult = some a)
    (hne : a ≠ "") :
    (processToolUse env tu).resultBlock
      = .toolResult tu.id (tr.content ++ "\n\n" ++ a) tr.isError ∧
    (processToolUse env tu).events
      = [.toolResult tu.id tu.name tr.content (tr.isError.getD false)] ∧
    (∀ cfg turnNumber st, env.cancelAt = none →
      (streamPhase env.cancelAt (env.script.getD turnNumber []) [] none {} st.time).stopReason
        = some "tool_use" →
      (turnStep env cfg turnNumber st).st.messages
        = (compactStep cfg env
            (streamPhase env.cancelAt (env.script.getD turnNumber []) [] none {} st.time).usage
            (st.messages ++ [⟨.assistant, .blocks (buildAssistantContent
              (streamPhase env.cancelAt (env.script.getD turnNumber []) [] none {} st.time).acc)⟩])).messages
          ++ [⟨.user, .blocks (toolPhase env (toolUsesOfAcc
              (streamPhase env.cancelAt (env.script.getD turnNumber []) [] none {} st.time).acc)).2.1⟩]) := by
  have hpre : ¬ (hooksRun true env.preHooks { tool := tu.name, input := tu.input }).allow = false := by
    rw [hallow]
    simp
  refine ⟨?_, ?_, ?_⟩
  · simp only [processToolUse, hexec, happ]
    rw [if_neg (by simp [hallow]), if_neg hne]
  · simp only [processToolUse, hexec]
    rw [if_neg (by simp [hallow])]
  · intro cfg turnNumber st hnc hsr
    exact (turnStep_tool_use_branch env cfg turnNumber st hnc hsr).2

/-- Witness for C4: a post-hook appending `lint: ok` yields the API
content `out\n\nlint: ok`. -/
theorem postToolUse_append_witness :
    ((hooksRun true envHookAppend.preHooks { tool := "A", input := "{}" }).allow = true) ∧
    (envHookAppend.toolExec "A"
        ((hooksRun true envHookAppend.preHooks
          { tool := "A", input := "{}" }).modified.getD "{}")
      = .ok { content := "out" }) ∧
    ((hooksRun false envHookAppend.postHooks
        { tool := "A"
          input := (hooksRun true envHookAppend.preHooks
            { tool := "A", input := "{}" }).modified.getD "{}"
          result := "out"
          isError := false }).appendToResult = some "lint: ok") ∧
    (processToolUse envHookAppend ⟨"t1", "A", "{}"⟩).resultBlock
      = .toolResult "t1" ("out" ++ "\n\n" ++ "lint: ok") none :=
  ⟨by decide, rfl, by decide,
   (postToolUse_append envHookAppend ⟨"t1", "A", "{}"⟩ { content := "out" } "lint: ok"
     (by decide) rfl (by decide) (by decide)).1⟩

/-- The threshold test of the compact step is the spec's ratio test. -/
theorem compactCondition_iff_ratio (cfg : LoopCfgM) (u : UsageM)
    (hpos : 0 < cfg.maxContextTokens) :
    compactCondition cfg u = true ↔
      ((u.input_tokens - u.cache_read_input_tokens.getD 0 : ℚ) / (cfg.maxContextTokens : ℚ)
        ≥ (cfg.thresholdPercent.getD 80 : ℚ) / 100) := by
  have h100 : (0 : ℚ) < 100 := by norm_num
  have hc : (0 : ℚ) < (cfg.maxContextTokens : ℚ) := by exact_mod_cast hpos
  simp only [compactCondition, decide_eq_true_eq, ge_iff_le]
  rw [div_le_div_iff₀ h100 hc]
  constructor
  · intro h
    exact_mod_cast h
  · intro h
    exact_mod_cast h

/-- **C5.** With a compactor supplied, the compact step of each turn
invokes it iff auto-compact is enabled and
`(input_tokens − cache_read_input_tokens)/maxContextTokens` is at least
`thresholdPercent/100` (default 80/100); a successful invocation replaces
the messages with the compactor's result and emits exactly one `compact`
event carrying the previous and new message counts; otherwise messages
and events are untouched.  In an uncancelled `end_turn` turn, the
conversation history ends up equal to the compact step's messages and the
compact step's events are emitted between `turn_complete` and `done`. -/
theorem autoCompact_spec (cfg : LoopCfgM) (env : LoopEnvM) (turnUsage : UsageM)
    (messages : List MessageM) (f : List MessageM → Option (List MessageM))
    (hf : env.onCompact = some f) (hpos : 0 < cfg.maxContextTokens) :
    ((compactStep cfg env turnUsage messages).invoked = true ↔
      (cfg.autoCompactEnabled = true ∧
        ((turnUsage.input_tokens - turnUsage.cache_read_input_tokens.getD 0 : ℚ)
            / (cfg.maxContextTokens : ℚ)
          ≥ (cfg.thresholdPercent.getD 80 : ℚ) / 100))) ∧
    (∀ newMsgs, f messages = some newMsgs →
      (compactStep cfg env turnUsage messages).invoked = true →
      (compactStep cfg env turnUsage messages).messages = newMsgs ∧
      (compactStep cfg env turnUsage messages).events
        = [.compact messages.length newMsgs.length]) ∧
    ((compactStep cfg env turnUsage messages).invoked = false →
      (compactStep cfg env turnUsage messages).messages = messages ∧
      (compactStep cfg env turnUsage messages).events = []) ∧
    (∀ turnNumber st, env.cancelAt = none →
      (streamPhase env.cancelAt (env.script.getD turnNumber []) [] none {} st.time).stopReason
        = some "end_turn" →
      (turnStep env cfg turnNumber st).st.history
        = (compactStep cfg env
            (streamPhase env.cancelAt (env.script.getD turnNumber []) [] none {} st.time).usage
            (st.messages ++ [⟨.assistant, .blocks (buildAssistantContent
              (streamPhase env.cancelAt (env.script.getD turnNumber []) [] none {} st.time).acc)⟩])).messages) := by
  refine ⟨?_, ?_, ?_, ?_⟩
  · rw [← compactCondition_iff_ratio cfg turnUsage hpos]
    simp only [compactStep, hf]
    by_cases he : cfg.autoCompactEnabled = true
    · by_cases hcc : compactCondition cfg turnUsage = true
      · rw [he, hcc]
        simp only [if_true]
        cases f messages <;> simp [he, hcc]
      · simp only [he, if_true]
        rw [if_neg hcc]
        simp [hcc]
    · rw [if_neg he]
      simp [he]
  · intro newMsgs hfm hinv
    simp only [compactStep, hf] at hinv ⊢
    by_cases he : cfg.autoCompactEnabled = true
    · by_cases hcc : compactCondition cfg turnUsage = true
      · rw [he] at hinv ⊢
        simp only [if_true] at hinv ⊢
        rw [if_pos hcc] at hinv ⊢
        rw [hfm]
        simp
      · rw [he] at hinv
        simp only [if_true] at hinv
        rw [if_neg hcc] at hinv
        simp at hinv
    · rw [if_neg he] at hinv
      simp at hinv
  · intro hinv
    simp only [compactStep, hf] at hinv ⊢
    by_cases he : cfg.autoCompactEnabled = true
    · by_cases hcc : compactCondition cfg turnUsage = true
      · rw [he] at hinv
        simp only [if_true] at hinv
        rw [if_pos hcc] at hinv
        cases hfm : f messages <;> rw [hfm] at hinv <;> simp at hinv
      · rw [he] at hinv ⊢
        simp only [if_true] at hinv ⊢
        rw [if_neg hcc]
        simp
    · rw [if_neg he] at hinv ⊢
      simp
  · intro turnNumber st hnc hsr
    exact (turnStep_end_turn_branch env cfg turnNumber st hnc hsr).1

/-- Witness for C5, the spec's concrete scenario: threshold 50 %, max
context 1000 tokens, a turn with `input_tokens = 700` and
`cache_read_input_tokens = 100` (effective 600 ≥ 500): the compactor is
invoked, the messages are replaced by its (empty) result, and one
`compact` event with counts 1 → 0 is emitted. -/
theorem autoCompact_spec_witness :
    envCompact.onCompact = some (fun _ => some []) ∧
    (0 : Int) < cfgCompact.maxContextTokens ∧
    (compactStep cfgCompact envCompact ⟨700, 0, none, some 100⟩
        [⟨.user, .str "m"⟩]).invoked = true ∧
    (compactStep cfgCompact envCompact ⟨700, 0, none, some 100⟩
        [⟨.user, .str "m"⟩]).messages = [] ∧
    (compactStep cfgCompact envCompact ⟨700, 0, none, some 100⟩
        [⟨.user, .str "m"⟩]).events = [.compact 1 0] := by
  have h := autoCompact_spec cfgCompact envCompact ⟨700, 0, none, some 100⟩
    [⟨.user, .str "m"⟩] (fun _ => some []) rfl (by decide)
  have hinv : (compactStep cfgCompact envCompact ⟨700, 0, none, some 100⟩
      [⟨.user, .str "m"⟩]).invoked = true := by decide
  obtain ⟨hm, hev⟩ := h.2.1 [] rfl hinv
  exact ⟨rfl, by decide, hinv, hm, hev⟩

end Sol

